import Mathlib

/-!
# Verification of the `please` assistant core

Shallow embedding, in Lean 4, of the parts of the `please` repository that the
frozen claims are about, together with proofs/refutations of those claims.

Conventions:
* Rust `String`s are modelled as `List Char`.  All the tags searched for by the
  Harmony parser are ASCII, and byte-level substring search for an ASCII
  pattern inside valid UTF-8 can only match at character boundaries, so the
  character-list model is faithful to the byte-level Rust code.
* `HashMap<String, String>` is modelled as an association list with
  overwrite-on-insert semantics (`AList`-style); the source never iterates
  over the maps, so ordering is irrelevant.
* Filesystem-touching code is modelled over an abstract filesystem record
  whose fields capture exactly the properties of `std::fs` that the code
  relies upon; concrete instances are supplied for witnesses.
-/

namespace Please

/-! ## Harmony parser (src/harmony.rs)

Embedding of `HarmonyParser`: states, tags, `parse_header`, `overlap`,
`advance` and the `add_content` drive loop.
-/

/-- `HarmonyHeader` from src/harmony.rs: who is speaking, through which
channel, to whom. -/
structure HarmonyHeader where
  role : List Char
  channel : List Char
  recipient : List Char
  deriving DecidableEq, Repr

/-- `HarmonyEvent` from src/harmony.rs. -/
inductive HarmonyEvent where
  | messageStart : HarmonyEvent
  | headerComplete : HarmonyHeader → HarmonyEvent
  | contentEmitted : List Char → HarmonyEvent
  | messageEnd : HarmonyEvent
  deriving DecidableEq, Repr

/-- `ParserState` from src/harmony.rs. -/
inductive ParserState where
  | lookingForMessageStart : ParserState
  | parsingHeader : ParserState
  | parsingContent : ParserState
  deriving DecidableEq, Repr

/-- `HarmonyParser` state: phase plus rolling accumulator (the tag fields
always hold the default tags in the program, so they are global constants
here). -/
structure HarmonyParser where
  state : ParserState
  acc : List Char
  deriving DecidableEq, Repr

/-- `<|start|>` -/
def messageStartTag : List Char := "<|start|>".toList

/-- `<|end|>` -/
def messageEndTag : List Char := "<|end|>".toList

/-- `<|message|>` -/
def headerEndTag : List Char := "<|message|>".toList

/-- Rust `str::find` for a substring pattern: index of the first occurrence. -/
def findSub (s pat : List Char) : Option Nat :=
  if pat.isPrefixOf s then some 0
  else
    match s with
    | [] => none
    | _ :: s' => (findSub s' pat).map (· + 1)

/-- Helper for `overlap` of src/harmony.rs: try suffix lengths `i, i-1, …, 1`. -/
def overlapAux (s delim : List Char) : Nat → Nat
  | 0 => 0
  | i + 1 => if (delim.take (i + 1)).isSuffixOf s then i + 1 else overlapAux s delim i

/-- `overlap` from src/harmony.rs: longest suffix of `s` that is a prefix of
`delim`. -/
def overlap (s delim : List Char) : Nat :=
  overlapAux s delim (min delim.length s.length)

/-- Rust `char::is_whitespace` restricted to the ASCII whitespace characters
(headers on the Harmony wire are ASCII). -/
def isWs (c : Char) : Bool :=
  c = ' ' || c = '\t' || c = '\n' || c = '\r' || c = '\x0b' || c = '\x0c'

/-- Rust `str::trim` (over `isWs`). -/
def trimChars (s : List Char) : List Char :=
  (s.dropWhile isWs).reverse.dropWhile isWs |>.reverse

/-- Rust `str::replacen(pat, repl, 1)`: replace the first occurrence only. -/
def replaceFirst (s pat repl : List Char) : List Char :=
  match findSub s pat with
  | none => s
  | some i => s.take i ++ repl ++ s.drop (i + pat.length)

/-- Does `pat` occur in `s` (Rust `str::contains`)? -/
def containsSub (s pat : List Char) : Bool :=
  (findSub s pat).isSome

/-- Rust `str::split_whitespace` (over `isWs`), written with explicit fuel so
that it is structurally recursive (the list shrinks by at least one element
per step, so `length + 1` fuel always suffices).  When the head is not
whitespace, `takeWhile`/`dropWhile` on the whole list step over the head, so
the recursion is written on the tail directly. -/
def splitWsFuel : Nat → List Char → List (List Char)
  | 0, _ => []
  | _ + 1, [] => []
  | fuel + 1, c :: rest =>
    if isWs c then splitWsFuel fuel rest
    else
      (c :: rest.takeWhile (fun x => !isWs x)) ::
        splitWsFuel fuel (rest.dropWhile (fun x => !isWs x))

/-- Rust `str::split_whitespace` (over `isWs`). -/
def splitWs (s : List Char) : List (List Char) :=
  splitWsFuel (s.length + 1) s

/-- Rust `str::strip_prefix`. -/
def stripPrefix (s pat : List Char) : Option (List Char) :=
  if pat.isPrefixOf s then some (s.drop pat.length) else none

/-- `HarmonyParser::parse_header` from src/harmony.rs. -/
def parseHeader (rawIn : List Char) : HarmonyHeader :=
  -- step 1: pad `<|constrain|>` with a leading space, then trim
  let raw0 :=
    if containsSub rawIn "<|constrain|>".toList then
      trimChars (replaceFirst rawIn "<|constrain|>".toList " <|constrain|>".toList)
    else rawIn
  -- step 2: extract the channel token following `<|channel|>`
  let (channel, raw1) :=
    match findSub raw0 "<|channel|>".toList with
    | none => (([] : List Char), raw0)
    | some idx =>
      let before := raw0.take idx
      let after := raw0.drop (idx + "<|channel|>".toList.length)
      let chan := after.takeWhile (fun c => !isWs c)
      let rest := after.dropWhile (fun c => !isWs c)
      (chan, trimChars (before ++ rest))
  -- step 3: role / recipient from the remaining whitespace-separated tokens
  match splitWs raw1 with
  | [] => ⟨[], channel, []⟩
  | first :: rest =>
    match stripPrefix first "to=".toList with
    | some r => ⟨"tool".toList, channel, r⟩
    | none =>
      match rest with
      | [] => ⟨first, channel, []⟩
      | next :: _ =>
        match stripPrefix next "to=".toList with
        | some r => ⟨first, channel, r⟩
        | none => ⟨first, channel, []⟩

/-- `ContentEmitted` guarded on non-emptiness, as in both emission sites of
`HarmonyParser::advance` (`if !content.is_empty()` / `if emit.is_empty()`). -/
def optEmit (c : List Char) : List HarmonyEvent :=
  if c = [] then [] else [.contentEmitted c]

/-- One step of `HarmonyParser::advance`: events, next parser, and whether the
drive loop should continue.  The two `ParsingContent` fall-through branches of
the source (`overlap_len > 0` and the take-all branch) are the `o > 0` / `o = 0`
cases of the single expression here. -/
def advance (p : HarmonyParser) : List HarmonyEvent × HarmonyParser × Bool :=
  match p.state with
  | .lookingForMessageStart =>
    match findSub p.acc messageStartTag with
    | some idx =>
      ([.messageStart],
        ⟨.parsingHeader, p.acc.drop (idx + messageStartTag.length)⟩, true)
    | none => ([], p, false)
  | .parsingHeader =>
    match findSub p.acc headerEndTag with
    | some idx =>
      ([.headerComplete (parseHeader (p.acc.take idx))],
        ⟨.parsingContent, p.acc.drop (idx + headerEndTag.length)⟩, true)
    | none => ([], p, false)
  | .parsingContent =>
    match findSub p.acc messageEndTag with
    | some idx =>
      (optEmit (p.acc.take idx) ++ [.messageEnd],
        ⟨.lookingForMessageStart, p.acc.drop (idx + messageEndTag.length)⟩, true)
    | none =>
      let o := overlap p.acc messageEndTag
      (optEmit (p.acc.take (p.acc.length - o)),
        ⟨.parsingContent, p.acc.drop (p.acc.length - o)⟩, false)

theorem findSub_isPrefix {s pat : List Char} {i : Nat} (h : findSub s pat = some i) :
    pat.isPrefixOf (s.drop i) := by
  induction s generalizing i with
  | nil =>
    unfold findSub at h
    split at h
    · simp_all
    · simp at h
  | cons c s' ih =>
    unfold findSub at h
    split at h
    next hp =>
      simp at h
      subst h
      simpa using hp
    next hp =>
      simp only [Option.map_eq_some'] at h
      obtain ⟨j, hj, rfl⟩ := h
      simpa using ih hj

theorem advance_true_shrinks {p : HarmonyParser} {evs : List HarmonyEvent}
    {p' : HarmonyParser} (h : advance p = (evs, p', true)) :
    p'.acc.length < p.acc.length := by
  have tagpos : ∀ (pat : List Char) (i : Nat), pat ≠ [] →
      findSub p.acc pat = some i → i + pat.length ≤ p.acc.length ∧ 0 < i + pat.length := by
    intro pat i hne hf
    have hpre := findSub_isPrefix hf
    rw [List.isPrefixOf_iff_prefix] at hpre
    have hlen := hpre.length_le
    rw [List.length_drop] at hlen
    have hplen : 0 < pat.length := List.length_pos.mpr hne
    constructor
    · omega
    · omega
  unfold advance at h
  split at h
  · split at h
    next idx hf =>
      obtain ⟨h1, h2, _⟩ := Prod.mk.injEq .. ▸ h
      have := tagpos messageStartTag idx (by decide) hf
      cases h
      simp only [List.length_drop]
      omega
    · cases h
  · split at h
    next idx hf =>
      have := tagpos headerEndTag idx (by decide) hf
      cases h
      simp only [List.length_drop]
      omega
    · cases h
  · split at h
    next idx hf =>
      have := tagpos messageEndTag idx (by decide) hf
      cases h
      simp only [List.length_drop]
      omega
    · cases h

/-- The `while keep_parsing` loop of `HarmonyParser::add_content`, with
explicit fuel for structural recursion. -/
def driveFuel : Nat → HarmonyParser → List HarmonyEvent × HarmonyParser
  | 0, p => ([], p)
  | fuel + 1, p =>
    match advance p with
    | (evs, p', true) =>
      let r := driveFuel fuel p'
      (evs ++ r.1, r.2)
    | (evs, p', false) => (evs, p')

/-- The `while keep_parsing` loop of `HarmonyParser::add_content`.
`advance` with `keep_parsing = true` strictly shrinks the accumulator
(`advance_true_shrinks`), so `acc.length + 1` fuel is never exhausted:
`driveFuel_congr` shows the result is fuel-independent beyond that bound. -/
def drive (p : HarmonyParser) : List HarmonyEvent × HarmonyParser :=
  driveFuel (p.acc.length + 1) p

theorem driveFuel_congr : ∀ (f1 f2 : Nat) (p : HarmonyParser),
    p.acc.length < f1 → p.acc.length < f2 → driveFuel f1 p = driveFuel f2 p := by
  intro f1
  induction f1 with
  | zero =>
    intro f2 p h1 h2
    omega
  | succ f1 ih =>
    intro f2 p h1 h2
    match f2 with
    | f2 + 1 =>
      simp only [driveFuel]
      cases hadv : advance p with
      | mk evs rest =>
        match rest with
        | (p', true) =>
          have hs := advance_true_shrinks hadv
          simp only [ih f2 p' (by omega) (by omega)]
        | (p', false) => rfl

/-- `HarmonyParser::add_content`: push the chunk, then drive to quiescence. -/
def addContent (p : HarmonyParser) (content : List Char) :
    List HarmonyEvent × HarmonyParser :=
  drive ⟨p.state, p.acc ++ content⟩

/-- `HarmonyParser::new`. -/
def HarmonyParser.new : HarmonyParser :=
  ⟨.lookingForMessageStart, []⟩

/-- `HarmonyParser::add_implicit_start`. -/
def addImplicitStart (p : HarmonyParser) : HarmonyParser :=
  ⟨p.state, p.acc ++ "<|start|>assistant".toList⟩

/-- Feed a list of chunks in order, concatenating the emitted events. -/
def feedAll (p : HarmonyParser) : List (List Char) → List HarmonyEvent × HarmonyParser
  | [] => ([], p)
  | c :: cs =>
    let r := addContent p c
    let rest := feedAll r.2 cs
    (r.1 ++ rest.1, rest.2)

/-! ### Substring-search and overlap lemmas -/

theorem prefix_of_append_of_le {p a b : List Char} (h : p <+: a ++ b)
    (hl : p.length ≤ a.length) : p <+: a := by
  have := List.prefix_iff_eq_take.mp h
  rw [List.take_append_of_le_length hl] at this
  exact this ▸ List.take_prefix p.length a

theorem findSub_nil_pat (s : List Char) : findSub s [] = some 0 := by
  unfold findSub
  simp [List.isPrefixOf]

theorem findSub_le_length {s pat : List Char} {i : Nat} (h : findSub s pat = some i) :
    i + pat.length ≤ s.length := by
  have hpre := findSub_isPrefix h
  rw [List.isPrefixOf_iff_prefix] at hpre
  have hi : i ≤ s.length := by
    by_contra hc
    push_neg at hc
    rw [List.drop_eq_nil_of_le (le_of_lt hc)] at hpre
    have : pat = [] := List.prefix_nil.mp hpre
    subst this
    rw [findSub_nil_pat] at h
    simp at h
    omega
  have := hpre.length_le
  rw [List.length_drop] at this
  omega

theorem findSub_none_not_prefix {s pat : List Char} (h : findSub s pat = none) :
    ∀ j, ¬ pat <+: s.drop j := by
  induction s with
  | nil =>
    intro j hj
    unfold findSub at h
    split at h
    · simp at h
    next hp =>
      rw [List.drop_nil] at hj
      exact hp (List.isPrefixOf_iff_prefix.mpr hj)
  | cons c s' ih =>
    intro j hj
    unfold findSub at h
    split at h
    · simp at h
    next hp =>
      simp only [Option.map_eq_none'] at h
      match j with
      | 0 => exact hp (List.isPrefixOf_iff_prefix.mpr (by simpa using hj))
      | j + 1 => exact ih h j (by simpa using hj)

theorem findSub_min {s pat : List Char} {i : Nat} (h : findSub s pat = some i) :
    ∀ j, j < i → ¬ pat <+: s.drop j := by
  induction s generalizing i with
  | nil =>
    unfold findSub at h
    split at h
    · simp at h; omega
    · simp at h
  | cons c s' ih =>
    unfold findSub at h
    split at h
    · simp at h; omega
    next hp =>
      simp only [Option.map_eq_some'] at h
      obtain ⟨k, hk, rfl⟩ := h
      intro j hj
      match j with
      | 0 =>
        intro hpre
        exact hp (List.isPrefixOf_iff_prefix.mpr (by simpa using hpre))
      | j + 1 =>
        exact ih hk j (by omega)

theorem findSub_append_some {pat b : List Char} :
    ∀ {s : List Char} {i : Nat}, findSub s pat = some i → findSub (s ++ b) pat = some i := by
  intro s
  induction s with
  | nil =>
    intro i h
    unfold findSub at h
    split at h
    next hp =>
      simp at h
      subst h
      have : pat = [] := List.prefix_nil.mp (List.isPrefixOf_iff_prefix.mp hp)
      subst this
      simpa using findSub_nil_pat b
    · simp at h
  | cons c s' ih =>
    intro i h
    unfold findSub at h
    unfold findSub
    split at h
    next hp =>
      simp at h
      subst h
      rw [if_pos]
      rw [List.isPrefixOf_iff_prefix] at hp ⊢
      exact hp.trans (List.prefix_append _ _)
    next hp =>
      simp only [Option.map_eq_some'] at h
      obtain ⟨k, hk, rfl⟩ := h
      rw [if_neg, List.cons_append]
      · simp only [Option.map_eq_some']
        exact ⟨k, ih hk, rfl⟩
      · intro hc
        apply hp
        rw [List.isPrefixOf_iff_prefix] at hc ⊢
        rw [List.cons_append] at hc
        have hlen : pat.length ≤ (c :: s').length := by
          have := findSub_le_length hk
          simp
          omega
        exact prefix_of_append_of_le hc hlen

theorem findSub_shift {pat : List Char} :
    ∀ (k : Nat) (s : List Char), k ≤ s.length →
      (∀ j, j < k → ¬ pat <+: s.drop j) →
      findSub s pat = (findSub (s.drop k) pat).map (· + k) := by
  intro k
  induction k with
  | zero =>
    intro s _ _
    simp only [List.drop_zero]
    cases findSub s pat <;> simp
  | succ k ih =>
    intro s hk hnot
    match s with
    | [] => simp at hk
    | c :: s' =>
      have h0 : ¬ pat.isPrefixOf (c :: s') := by
        intro hc
        exact hnot 0 (by omega) (by simpa using List.isPrefixOf_iff_prefix.mp hc)
      rw [findSub, if_neg h0]
      have hrec := ih s' (by simpa using hk)
        (fun j hj => by simpa using hnot (j + 1) (by omega))
      rw [hrec]
      simp only [List.drop_succ_cons]
      cases findSub (s'.drop k) pat <;> simp
      omega

theorem overlapAux_le {s delim : List Char} : ∀ i, overlapAux s delim i ≤ i := by
  intro i
  induction i with
  | zero => simp [overlapAux]
  | succ i ih =>
    unfold overlapAux
    split
    · exact le_refl _
    · omega

theorem overlap_le_min {s delim : List Char} :
    overlap s delim ≤ min delim.length s.length :=
  overlapAux_le _

theorem overlapAux_suffix {s delim : List Char} :
    ∀ i, delim.take (overlapAux s delim i) <:+ s := by
  intro i
  induction i with
  | zero => simp [overlapAux]
  | succ i ih =>
    unfold overlapAux
    split
    next h => exact List.isSuffixOf_iff_suffix.mp h
    · exact ih

theorem overlap_take_suffix {s delim : List Char} :
    delim.take (overlap s delim) <:+ s :=
  overlapAux_suffix _

theorem overlapAux_maximal {s delim : List Char} :
    ∀ i m, m ≤ i → delim.take m <:+ s → m ≤ overlapAux s delim i := by
  intro i
  induction i with
  | zero => omega
  | succ i ih =>
    intro m hm hsuf
    unfold overlapAux
    split
    · omega
    next hneg =>
      rcases Nat.lt_or_ge m (i + 1) with hlt | hge
      · exact ih m (by omega) hsuf
      · exfalso
        have : m = i + 1 := by omega
        subst this
        exact hneg (List.isSuffixOf_iff_suffix.mpr hsuf)

theorem overlap_maximal {s delim : List Char} {m : Nat}
    (hm : m ≤ min delim.length s.length) (hsuf : delim.take m <:+ s) :
    m ≤ overlap s delim :=
  overlapAux_maximal _ m hm hsuf

/-! ### Event coalescing

Two event streams are considered equivalent when they agree after merging
adjacent `ContentEmitted` events and dropping empty ones: this is the
equivalence under which chunked parsing matches one-shot parsing. -/

/-- One step of the coalescing fold: push an event onto an already-coalesced
stream, merging `ContentEmitted` runs and dropping empty content. -/
def coStep (e : HarmonyEvent) (r : List HarmonyEvent) : List HarmonyEvent :=
  match e with
  | .contentEmitted c =>
    if c = [] then r
    else
      match r with
      | .contentEmitted d :: t => .contentEmitted (c ++ d) :: t
      | _ => .contentEmitted c :: r
  | e => e :: r

/-- Canonical form of an event stream: adjacent `ContentEmitted` merged,
empty `ContentEmitted` dropped. -/
def coalesce : List HarmonyEvent → List HarmonyEvent
  | [] => []
  | e :: rest => coStep e (coalesce rest)

theorem coalesce_append (a b : List HarmonyEvent) :
    coalesce (a ++ b) = List.foldr coStep (coalesce b) a := by
  induction a with
  | nil => rfl
  | cons e a ih => simp [coalesce, ih]

theorem coalesce_append_congr {a b b' : List HarmonyEvent}
    (h : coalesce b = coalesce b') : coalesce (a ++ b) = coalesce (a ++ b') := by
  rw [coalesce_append, coalesce_append, h]

theorem coStep_optEmit_merge (x y : List Char) (r : List HarmonyEvent) :
    coalesce (optEmit x ++ (optEmit y ++ r)) = coalesce (optEmit (x ++ y) ++ r) := by
  by_cases hx : x = []
  · subst hx
    simp [optEmit]
  · by_cases hy : y = []
    · subst hy
      simp [optEmit, hx]
    · have hxy : x ++ y ≠ [] := by simp [hx]
      simp only [optEmit, if_neg hx, if_neg hy, if_neg hxy]
      simp only [List.cons_append, List.nil_append, coalesce, List.append_nil,
        show ∀ l : List HarmonyEvent, [].append l = l from fun _ => rfl]
      cases hr : coalesce r with
      | nil => simp [coStep, hx, hy, hxy]
      | cons e t =>
        cases e with
        | contentEmitted d => simp [coStep, hx, hy, hxy]
        | messageStart => simp [coStep, hx, hy, hxy]
        | messageEnd => simp [coStep, hx, hy, hxy]
        | headerComplete hd => simp [coStep, hx, hy, hxy]

/-! ### Drive-loop equations -/

theorem drive_continue {p : HarmonyParser} {evs : List HarmonyEvent}
    {p' : HarmonyParser} (h : advance p = (evs, p', true)) :
    drive p = (evs ++ (drive p').1, (drive p').2) := by
  have hs := advance_true_shrinks h
  unfold drive
  conv_lhs => rw [driveFuel, h]
  simp only []
  rw [driveFuel_congr p.acc.length (p'.acc.length + 1) p' (by omega) (by omega)]

theorem drive_stop {p : HarmonyParser} {evs : List HarmonyEvent}
    {p' : HarmonyParser} (h : advance p = (evs, p', false)) :
    drive p = (evs, p') := by
  unfold drive
  conv_lhs => rw [driveFuel, h]

/-- Run the drive loop, then append `b` to the residue and run it again;
`drive_append` below shows this is equivalent to driving `acc ++ b` at once. -/
def driveCat (p : HarmonyParser) (b : List Char) : List HarmonyEvent × HarmonyParser :=
  ((drive p).1 ++ (drive ⟨(drive p).2.state, (drive p).2.acc ++ b⟩).1,
    (drive ⟨(drive p).2.state, (drive p).2.acc ++ b⟩).2)

theorem driveCat_continue {p : HarmonyParser} {evs : List HarmonyEvent}
    {p' : HarmonyParser} (b : List Char) (h : advance p = (evs, p', true)) :
    driveCat p b = (evs ++ (driveCat p' b).1, (driveCat p' b).2) := by
  unfold driveCat
  rw [drive_continue h]
  simp [List.append_assoc]

theorem driveCat_stop {p : HarmonyParser} {evs : List HarmonyEvent}
    {p' : HarmonyParser} (b : List Char) (h : advance p = (evs, p', false)) :
    driveCat p b = (evs ++ (drive ⟨p'.state, p'.acc ++ b⟩).1,
      (drive ⟨p'.state, p'.acc ++ b⟩).2) := by
  unfold driveCat
  rw [drive_stop h]

theorem findSub_nil {pat : List Char} (h : pat ≠ []) : findSub [] pat = none := by
  unfold findSub
  rw [if_neg]
  intro hc
  exact h (List.prefix_nil.mp (List.isPrefixOf_iff_prefix.mp hc))

theorem overlap_nil {delim : List Char} : overlap [] delim = 0 := by
  simp [overlap, overlapAux]

theorem advance_nil (s : ParserState) :
    advance ⟨s, []⟩ = ([], ⟨s, []⟩, false) := by
  cases s <;>
    simp [advance, findSub_nil (by decide : messageStartTag ≠ []),
      findSub_nil (by decide : headerEndTag ≠ []),
      findSub_nil (by decide : messageEndTag ≠ []), overlap_nil, optEmit]

theorem drive_nil (s : ParserState) : drive ⟨s, []⟩ = ([], ⟨s, []⟩) :=
  drive_stop (advance_nil s)

theorem coalesce_optEmit_end (c : List Char) (x : List HarmonyEvent) :
    coalesce (optEmit c ++ .messageEnd :: x) = optEmit c ++ .messageEnd :: coalesce x := by
  by_cases hc : c = [] <;> simp [optEmit, hc, coalesce, coStep]

theorem coalesce_cons (e : HarmonyEvent) (x : List HarmonyEvent) :
    coalesce (e :: x) = coStep e (coalesce x) := rfl

@[simp]
theorem coStep_messageStart (r : List HarmonyEvent) :
    coStep .messageStart r = .messageStart :: r := rfl

@[simp]
theorem coStep_headerComplete (h : HarmonyHeader) (r : List HarmonyEvent) :
    coStep (.headerComplete h) r = .headerComplete h :: r := rfl

@[simp]
theorem coStep_messageEnd (r : List HarmonyEvent) :
    coStep .messageEnd r = .messageEnd :: r := rfl

/-- In `acc ++ b`, no occurrence of `pat` can start before
`acc.length - overlap acc pat` when `pat` does not occur in `acc`:
an earlier start would either be an occurrence inside `acc` or a longer
suffix of `acc` that is a prefix of `pat` than `overlap` found. -/
theorem no_prefix_before_overlap {acc pat : List Char} (b : List Char)
    (hnone : findSub acc pat = none) :
    ∀ j, j < acc.length - overlap acc pat → ¬ pat <+: (acc ++ b).drop j := by
  intro j hj hpre
  have hoLe : overlap acc pat ≤ min pat.length acc.length := overlap_le_min
  have hjlen : j ≤ acc.length := by omega
  rw [List.drop_append_of_le_length hjlen] at hpre
  by_cases hc : pat.length ≤ (acc.drop j).length
  · exact findSub_none_not_prefix hnone j (prefix_of_append_of_le hpre hc)
  · push_neg at hc
    rw [List.length_drop] at hc
    have h1 : acc.drop j = (acc.drop j ++ b).take (acc.length - j) := by
      rw [List.take_append_of_le_length (by rw [List.length_drop])]
      exact (List.take_of_length_le (by rw [List.length_drop])).symm
    have hp := List.prefix_iff_eq_take.mp hpre
    have h2 : pat.take (acc.length - j) = (acc.drop j ++ b).take (acc.length - j) := by
      conv_lhs => rw [hp]
      rw [List.take_take, min_eq_left (by omega)]
    have h3 : acc.drop j = pat.take (acc.length - j) := by rw [h2, ← h1]
    have hsuf : pat.take (acc.length - j) <:+ acc := h3 ▸ List.drop_suffix j acc
    have hmax : acc.length - j ≤ overlap acc pat :=
      overlap_maximal (by omega) hsuf
    omega

/-- `overlap` against the end tag only depends on the retained
`overlap`-length suffix: appending `b` to `acc` or to that suffix yields the
same overlap. -/
theorem overlap_append_drop (acc b pat : List Char) :
    overlap (acc ++ b) pat
      = overlap (acc.drop (acc.length - overlap acc pat) ++ b) pat := by
  set o := overlap acc pat with ho
  have hoLe : o ≤ min pat.length acc.length := overlap_le_min
  set S := acc.drop (acc.length - o) with hS
  have hSlen : S.length = o := by
    rw [hS, List.length_drop]
    omega
  have hSsuf : S ++ b <:+ acc ++ b := by
    obtain ⟨t, ht⟩ := List.drop_suffix (acc.length - o) acc
    exact ⟨t, by rw [← List.append_assoc, ht]⟩
  have hSb : (S ++ b).length = o + b.length := by
    rw [List.length_append, hSlen]
  have hab : (acc ++ b).length = acc.length + b.length := by
    rw [List.length_append]
  apply le_antisymm
  · -- overlap (acc ++ b) ≤ overlap (S ++ b)
    set o2 := overlap (acc ++ b) pat with ho2
    have ho2Le : o2 ≤ min pat.length (acc ++ b).length := overlap_le_min
    have hT : pat.take o2 <:+ acc ++ b := overlap_take_suffix
    have hTlen : (pat.take o2).length = o2 := by
      rw [List.length_take]
      omega
    rcases le_or_lt o2 (S ++ b).length with hle | hgt
    · -- the witness suffix fits inside `S ++ b`
      have hdropS : S ++ b = (acc ++ b).drop (acc.length - o) := by
        rw [hS, List.drop_append_of_le_length (by omega)]
      have hTeq := List.suffix_iff_eq_drop.mp hT
      rw [hTlen] at hTeq
      have harith : (acc ++ b).length - o2
          = (acc.length - o) + ((S ++ b).length - o2) := by
        omega
      have hT2 : pat.take o2 <:+ S ++ b := by
        rw [hTeq, harith, ← List.drop_drop, ← hdropS]
        exact List.drop_suffix _ _
      exact overlap_maximal (by omega) hT2
    · -- impossible: it would exhibit a longer prefix-suffix in `acc` than `o`
      exfalso
      have hblen : b.length ≤ o2 := by omega
      set m := o2 - b.length with hm
      have hmgt : m > o := by omega
      have hTeq := List.suffix_iff_eq_drop.mp hT
      rw [hTlen] at hTeq
      have hmlen : m ≤ acc.length := by omega
      have hidx : (acc ++ b).length - o2 = acc.length - m := by omega
      have hTsplit : pat.take o2 = acc.drop (acc.length - m) ++ b := by
        rw [hTeq, hidx, List.drop_append_of_le_length (by omega)]
      have hAlen : (acc.drop (acc.length - m)).length = m := by
        rw [List.length_drop]
        omega
      have hA : acc.drop (acc.length - m) = pat.take m := by
        have h0 : (pat.take o2).take m = (acc.drop (acc.length - m) ++ b).take m := by
          rw [hTsplit]
        have h5 : (pat.take o2).take m = pat.take m := by
          rw [List.take_take]
          congr 1
          omega
        have h6 : (acc.drop (acc.length - m) ++ b).take m
            = acc.drop (acc.length - m) := by
          rw [List.take_append_of_le_length (le_of_eq hAlen.symm)]
          exact List.take_of_length_le (le_of_eq hAlen)
        rw [h5, h6] at h0
        exact h0.symm
      have hmax : m ≤ o :=
        overlap_maximal (by omega) (hA ▸ List.drop_suffix (acc.length - m) acc)
      omega
  · -- overlap (S ++ b) ≤ overlap (acc ++ b)
    set o1 := overlap (S ++ b) pat with ho1
    have ho1Le : o1 ≤ min pat.length (S ++ b).length := overlap_le_min
    have hT : pat.take o1 <:+ S ++ b := overlap_take_suffix
    refine overlap_maximal ?_ (hT.trans hSsuf)
    omega

set_option maxHeartbeats 1000000 in
/-- Master lemma: driving `acc`, then appending `b` to the residue and driving
again, is equivalent (after coalescing) to driving `acc ++ b` at once, and the
final parser states agree exactly. -/
theorem drive_append (b : List Char) :
    ∀ (n : Nat) (s : ParserState) (acc : List Char), acc.length ≤ n →
      coalesce (driveCat ⟨s, acc⟩ b).1 = coalesce (drive ⟨s, acc ++ b⟩).1
      ∧ (driveCat ⟨s, acc⟩ b).2 = (drive ⟨s, acc ++ b⟩).2 := by
  intro n
  induction n with
  | zero =>
    intro s acc hn
    have hacc : acc = [] := List.length_eq_zero.mp (Nat.le_zero.mp hn)
    subst hacc
    rw [List.nil_append]
    unfold driveCat
    rw [drive_nil]
    simp
  | succ n ih =>
    intro s acc hn
    cases s with
    | lookingForMessageStart =>
      cases hf : findSub acc messageStartTag with
      | none =>
        have hadv : advance ⟨.lookingForMessageStart, acc⟩
            = ([], ⟨.lookingForMessageStart, acc⟩, false) := by
          simp [advance, hf]
        rw [driveCat_stop b hadv]
        simp
      | some i =>
        have hadv : advance ⟨.lookingForMessageStart, acc⟩
            = ([.messageStart],
                ⟨.parsingHeader, acc.drop (i + messageStartTag.length)⟩, true) := by
          simp [advance, hf]
        have hadv2 : advance ⟨.lookingForMessageStart, acc ++ b⟩
            = ([.messageStart],
                ⟨.parsingHeader, (acc ++ b).drop (i + messageStartTag.length)⟩, true) := by
          simp [advance, findSub_append_some hf]
        have hile := findSub_le_length hf
        have hdrop : (acc ++ b).drop (i + messageStartTag.length)
            = acc.drop (i + messageStartTag.length) ++ b :=
          List.drop_append_of_le_length (by omega)
        have hlen : (acc.drop (i + messageStartTag.length)).length ≤ n := by
          rw [List.length_drop]
          have : 0 < messageStartTag.length := by decide
          omega
        obtain ⟨ihc, ihs⟩ := ih .parsingHeader (acc.drop (i + messageStartTag.length)) hlen
        rw [driveCat_continue b hadv, drive_continue hadv2, hdrop]
        constructor
        · rw [List.singleton_append, List.singleton_append, coalesce_cons,
            coalesce_cons, ihc]
        · exact ihs
    | parsingHeader =>
      cases hf : findSub acc headerEndTag with
      | none =>
        have hadv : advance ⟨.parsingHeader, acc⟩
            = ([], ⟨.parsingHeader, acc⟩, false) := by
          simp [advance, hf]
        rw [driveCat_stop b hadv]
        simp
      | some i =>
        have hile := findSub_le_length hf
        have htake : (acc ++ b).take i = acc.take i :=
          List.take_append_of_le_length (by omega)
        have hadv : advance ⟨.parsingHeader, acc⟩
            = ([.headerComplete (parseHeader (acc.take i))],
                ⟨.parsingContent, acc.drop (i + headerEndTag.length)⟩, true) := by
          simp [advance, hf]
        have hadv2 : advance ⟨.parsingHeader, acc ++ b⟩
            = ([.headerComplete (parseHeader (acc.take i))],
                ⟨.parsingContent, (acc ++ b).drop (i + headerEndTag.length)⟩, true) := by
          simp [advance, findSub_append_some hf, htake]
        have hdrop : (acc ++ b).drop (i + headerEndTag.length)
            = acc.drop (i + headerEndTag.length) ++ b :=
          List.drop_append_of_le_length (by omega)
        have hlen : (acc.drop (i + headerEndTag.length)).length ≤ n := by
          rw [List.length_drop]
          have : 0 < headerEndTag.length := by decide
          omega
        obtain ⟨ihc, ihs⟩ := ih .parsingContent (acc.drop (i + headerEndTag.length)) hlen
        rw [driveCat_continue b hadv, drive_continue hadv2, hdrop]
        constructor
        · rw [List.singleton_append, List.singleton_append, coalesce_cons,
            coalesce_cons, ihc]
        · exact ihs
    | parsingContent =>
      cases hf : findSub acc messageEndTag with
      | some i =>
        have hile := findSub_le_length hf
        have htake : (acc ++ b).take i = acc.take i :=
          List.take_append_of_le_length (by omega)
        have hadv : advance ⟨.parsingContent, acc⟩
            = (optEmit (acc.take i) ++ [.messageEnd],
                ⟨.lookingForMessageStart, acc.drop (i + messageEndTag.length)⟩, true) := by
          simp [advance, hf]
        have hadv2 : advance ⟨.parsingContent, acc ++ b⟩
            = (optEmit (acc.take i) ++ [.messageEnd],
                ⟨.lookingForMessageStart, (acc ++ b).drop (i + messageEndTag.length)⟩, true) := by
          simp [advance, findSub_append_some hf, htake]
        have hdrop : (acc ++ b).drop (i + messageEndTag.length)
            = acc.drop (i + messageEndTag.length) ++ b :=
          List.drop_append_of_le_length (by omega)
        have hlen : (acc.drop (i + messageEndTag.length)).length ≤ n := by
          rw [List.length_drop]
          have : 0 < messageEndTag.length := by decide
          omega
        obtain ⟨ihc, ihs⟩ := ih .lookingForMessageStart (acc.drop (i + messageEndTag.length)) hlen
        rw [driveCat_continue b hadv, drive_continue hadv2, hdrop]
        constructor
        · rw [List.append_assoc, List.append_assoc, List.singleton_append,
            List.singleton_append, coalesce_optEmit_end, coalesce_optEmit_end, ihc]
        · exact ihs
      | none =>
        -- `acc` holds no end tag: the drive stops, retaining the overlap
        -- suffix `S`; driving `acc ++ b` processes `front ++ (S ++ b)` with
        -- `front` emitted either way.
        have hoLe : overlap acc messageEndTag ≤ min messageEndTag.length acc.length :=
          overlap_le_min
        set o := overlap acc messageEndTag with ho
        set front := acc.take (acc.length - o) with hfront
        set S := acc.drop (acc.length - o) with hS
        have hSlen : S.length = o := by
          rw [hS, List.length_drop]
          omega
        have hfrontlen : front.length = acc.length - o := by
          rw [hfront, List.length_take]
          omega
        have hadv : advance ⟨.parsingContent, acc⟩
            = (optEmit front, ⟨.parsingContent, S⟩, false) := by
          simp [advance, hf, hfront, hS, ho]
        have habf : acc ++ b = front ++ (S ++ b) := by
          rw [hfront, hS, ← List.append_assoc, List.take_append_drop]
        have hnob := no_prefix_before_overlap b hf
        have hdropk : (acc ++ b).drop (acc.length - o) = S ++ b := by
          rw [hS, List.drop_append_of_le_length (by omega)]
        have hshift : findSub (acc ++ b) messageEndTag
            = (findSub (S ++ b) messageEndTag).map (· + (acc.length - o)) := by
          rw [← hdropk]
          exact findSub_shift (acc.length - o) (acc ++ b)
            (by rw [List.length_append]; omega) (fun j hj => hnob j (by omega))
        rw [driveCat_stop b hadv]
        cases hf2 : findSub (S ++ b) messageEndTag with
        | some k =>
          rw [hf2] at hshift
          simp only [Option.map_some'] at hshift
          have hkle := findSub_le_length hf2
          have htake2 : (acc ++ b).take (k + (acc.length - o))
              = front ++ (S ++ b).take k := by
            rw [show k + (acc.length - o) = front.length + k by omega]
            conv_lhs => rw [habf]
            rw [List.take_append_eq_append_take]
            congr 1
            · exact List.take_of_length_le (by omega)
            · congr 1
              omega
          have hdrop2 : (acc ++ b).drop (k + (acc.length - o) + messageEndTag.length)
              = (S ++ b).drop (k + messageEndTag.length) := by
            rw [← hdropk, List.drop_drop]
            congr 1
            omega
          have hadv2 : advance ⟨.parsingContent, acc ++ b⟩
              = (optEmit (front ++ (S ++ b).take k) ++ [.messageEnd],
                  ⟨.lookingForMessageStart,
                    (S ++ b).drop (k + messageEndTag.length)⟩, true) := by
            simp only [advance, hshift, htake2, hdrop2]
          have hadv3 : advance ⟨.parsingContent, S ++ b⟩
              = (optEmit ((S ++ b).take k) ++ [.messageEnd],
                  ⟨.lookingForMessageStart,
                    (S ++ b).drop (k + messageEndTag.length)⟩, true) := by
            simp [advance, hf2]
          rw [drive_continue hadv2, drive_continue hadv3]
          constructor
          · have hm := coStep_optEmit_merge front ((S ++ b).take k)
              (.messageEnd ::
                (drive ⟨.lookingForMessageStart, (S ++ b).drop (k + messageEndTag.length)⟩).1)
            simpa [List.append_assoc] using hm
          · rfl
        | none =>
          rw [hf2] at hshift
          simp only [Option.map_none'] at hshift
          have hov : overlap (acc ++ b) messageEndTag
              = overlap (S ++ b) messageEndTag :=
            overlap_append_drop acc b messageEndTag
          set o2 := overlap (S ++ b) messageEndTag with ho2
          have ho2Le : o2 ≤ min messageEndTag.length (S ++ b).length := overlap_le_min
          have hSbl : (S ++ b).length = o + b.length := by
            rw [List.length_append, hSlen]
          have habl : (acc ++ b).length = acc.length + b.length := List.length_append ..
          have htake2 : (acc ++ b).take ((acc ++ b).length - o2)
              = front ++ (S ++ b).take ((S ++ b).length - o2) := by
            rw [show (acc ++ b).length - o2
                = front.length + ((S ++ b).length - o2) by omega]
            conv_lhs => rw [habf]
            rw [List.take_append_eq_append_take]
            congr 1
            · exact List.take_of_length_le (by omega)
            · congr 1
              omega
          have hdrop2 : (acc ++ b).drop ((acc ++ b).length - o2)
              = (S ++ b).drop ((S ++ b).length - o2) := by
            rw [← hdropk, List.drop_drop]
            congr 1
            rw [List.length_drop]
            omega
          have hadv2 : advance ⟨.parsingContent, acc ++ b⟩
              = (optEmit (front ++ (S ++ b).take ((S ++ b).length - o2)),
                  ⟨.parsingContent, (S ++ b).drop ((S ++ b).length - o2)⟩, false) := by
            simp only [advance, hshift, hov, ← ho2, htake2, hdrop2]
          have hadv3 : advance ⟨.parsingContent, S ++ b⟩
              = (optEmit ((S ++ b).take ((S ++ b).length - o2)),
                  ⟨.parsingContent, (S ++ b).drop ((S ++ b).length - o2)⟩, false) := by
            simp only [advance, hf2, ← ho2]
          rw [drive_stop hadv2, drive_stop hadv3]
          constructor
          · have hm := coStep_optEmit_merge front
              ((S ++ b).take ((S ++ b).length - o2)) []
            simpa using hm
          · rfl

/-- Two-chunk form: feeding `a` then `b` coalesces to feeding `a ++ b`, with
identical final parser state. -/
theorem addContent_append (p : HarmonyParser) (a b : List Char) :
    coalesce ((addContent p a).1 ++ (addContent (addContent p a).2 b).1)
      = coalesce (addContent p (a ++ b)).1
    ∧ (addContent (addContent p a).2 b).2 = (addContent p (a ++ b)).2 := by
  have h := drive_append b (p.acc ++ a).length p.state (p.acc ++ a) le_rfl
  unfold driveCat at h
  unfold addContent
  rw [← List.append_assoc]
  exact h

theorem feedAll_cons (p : HarmonyParser) (c : List Char) (cs : List (List Char)) :
    feedAll p (c :: cs)
      = ((addContent p c).1 ++ (feedAll (addContent p c).2 cs).1,
          (feedAll (addContent p c).2 cs).2) := rfl

/-- Chunked feeding over any nonempty partition coalesces to one-shot feeding
of the concatenation, with identical final parser state. -/
theorem feedAll_join : ∀ (cs : List (List Char)) (p : HarmonyParser) (c : List Char),
    coalesce (feedAll p (c :: cs)).1 = coalesce (addContent p ((c :: cs).flatten)).1
    ∧ (feedAll p (c :: cs)).2 = (addContent p ((c :: cs).flatten)).2 := by
  intro cs
  induction cs with
  | nil =>
    intro p c
    simp [feedAll_cons, feedAll, List.flatten]
  | cons c2 cs ih =>
    intro p c
    obtain ⟨ih1, ih2⟩ := ih (addContent p c).2 c2
    obtain ⟨ha1, ha2⟩ := addContent_append p c ((c2 :: cs).flatten)
    rw [feedAll_cons]
    constructor
    · calc coalesce ((addContent p c).1 ++ (feedAll (addContent p c).2 (c2 :: cs)).1)
          = coalesce ((addContent p c).1 ++ (addContent (addContent p c).2 ((c2 :: cs).flatten)).1) :=
            coalesce_append_congr ih1
        _ = coalesce (addContent p (c ++ (c2 :: cs).flatten)).1 := ha1
        _ = coalesce (addContent p ((c :: c2 :: cs).flatten)).1 := by
            simp [List.flatten_cons]
    · calc (feedAll (addContent p c).2 (c2 :: cs)).2
          = (addContent (addContent p c).2 ((c2 :: cs).flatten)).2 := ih2
        _ = (addContent p (c ++ (c2 :: cs).flatten)).2 := ha2
        _ = (addContent p ((c :: c2 :: cs).flatten)).2 := by
            simp [List.flatten_cons]

/-- Whenever the drive loop stops in `ParsingContent`, the retained buffer is
exactly a (possibly empty) proper prefix of the end tag. -/
theorem drive_residue : ∀ (n : Nat) (p : HarmonyParser), p.acc.length ≤ n →
    ((drive p).2).state = .parsingContent →
    ((drive p).2).acc <+: messageEndTag
    ∧ ((drive p).2).acc.length < messageEndTag.length := by
  intro n
  induction n with
  | zero =>
    intro p hn _
    obtain ⟨st, acc⟩ := p
    have hacc : acc = [] := List.length_eq_zero.mp (Nat.le_zero.mp hn)
    subst hacc
    rw [drive_nil]
    refine ⟨List.nil_prefix, ?_⟩
    show ([] : List Char).length < messageEndTag.length
    decide
  | succ n ih =>
    intro p hn hstate
    obtain ⟨st, acc⟩ := p
    replace hn : acc.length ≤ n + 1 := hn
    cases st with
    | lookingForMessageStart =>
      cases hf : findSub acc messageStartTag with
      | none =>
        have hadv : advance ⟨.lookingForMessageStart, acc⟩
            = ([], ⟨.lookingForMessageStart, acc⟩, false) := by
          simp [advance, hf]
        rw [drive_stop hadv] at hstate
        simp at hstate
      | some i =>
        have hadv : advance ⟨.lookingForMessageStart, acc⟩
            = ([.messageStart],
                ⟨.parsingHeader, acc.drop (i + messageStartTag.length)⟩, true) := by
          simp [advance, hf]
        rw [drive_continue hadv] at hstate ⊢
        refine ih _ ?_ hstate
        have h1 := findSub_le_length hf
        have h2 : 0 < messageStartTag.length := by decide
        simp only [List.length_drop]
        omega
    | parsingHeader =>
      cases hf : findSub acc headerEndTag with
      | none =>
        have hadv : advance ⟨.parsingHeader, acc⟩
            = ([], ⟨.parsingHeader, acc⟩, false) := by
          simp [advance, hf]
        rw [drive_stop hadv] at hstate
        simp at hstate
      | some i =>
        have hadv : advance ⟨.parsingHeader, acc⟩
            = ([.headerComplete (parseHeader (acc.take i))],
                ⟨.parsingContent, acc.drop (i + headerEndTag.length)⟩, true) := by
          simp [advance, hf]
        rw [drive_continue hadv] at hstate ⊢
        refine ih _ ?_ hstate
        have h1 := findSub_le_length hf
        have h2 : 0 < headerEndTag.length := by decide
        simp only [List.length_drop]
        omega
    | parsingContent =>
      cases hf : findSub acc messageEndTag with
      | some i =>
        have hadv : advance ⟨.parsingContent, acc⟩
            = (optEmit (acc.take i) ++ [.messageEnd],
                ⟨.lookingForMessageStart, acc.drop (i + messageEndTag.length)⟩, true) := by
          simp [advance, hf]
        rw [drive_continue hadv] at hstate ⊢
        refine ih _ ?_ hstate
        have h1 := findSub_le_length hf
        have h2 : 0 < messageEndTag.length := by decide
        simp only [List.length_drop]
        omega
      | none =>
        have hoLe : overlap acc messageEndTag ≤ min messageEndTag.length acc.length :=
          overlap_le_min
        have hadv : advance ⟨.parsingContent, acc⟩
            = (optEmit (acc.take (acc.length - overlap acc messageEndTag)),
                ⟨.parsingContent, acc.drop (acc.length - overlap acc messageEndTag)⟩,
                false) := by
          simp [advance, hf]
        rw [drive_stop hadv]
        have hne7 : overlap acc messageEndTag ≠ messageEndTag.length := by
          intro hc
          have hsuf : messageEndTag.take (overlap acc messageEndTag) <:+ acc :=
            overlap_take_suffix
          rw [hc, List.take_length] at hsuf
          obtain ⟨t, ht⟩ := hsuf
          refine findSub_none_not_prefix hf t.length ?_
          rw [← ht, List.drop_left]
        have hsuf : messageEndTag.take (overlap acc messageEndTag) <:+ acc :=
          overlap_take_suffix
        have heq : acc.drop (acc.length - overlap acc messageEndTag)
            = messageEndTag.take (overlap acc messageEndTag) := by
          have := List.suffix_iff_eq_drop.mp hsuf
          rw [List.length_take, min_eq_left (by omega)] at this
          exact this.symm
        rw [heq]
        constructor
        · exact List.take_prefix _ _
        · rw [List.length_take, min_eq_left (by omega)]
          omega

/-- `<|call|>` (the tool-call terminator named by the spec). -/
def callTag : List Char := "<|call|>".toList

theorem callTag_ne_nil : callTag ≠ [] := by decide

/-- Feeding a fresh parser a start tag, a clean header and `<|message|>`
emits `MessageStart` and `HeaderComplete` and leaves the parser consuming
`rest` as content. -/
theorem addContent_start_header (hdr rest : List Char)
    (hhdr : findSub (hdr ++ headerEndTag) headerEndTag = some hdr.length) :
    addContent HarmonyParser.new (messageStartTag ++ hdr ++ headerEndTag ++ rest)
      = ([.messageStart, .headerComplete (parseHeader hdr)]
           ++ (drive ⟨.parsingContent, rest⟩).1,
         (drive ⟨.parsingContent, rest⟩).2) := by
  have hX : (HarmonyParser.new).acc ++ (messageStartTag ++ hdr ++ headerEndTag ++ rest)
      = messageStartTag ++ ((hdr ++ headerEndTag) ++ rest) := by
    simp [HarmonyParser.new, List.append_assoc]
  unfold addContent
  rw [hX]
  show drive ⟨.lookingForMessageStart, messageStartTag ++ ((hdr ++ headerEndTag) ++ rest)⟩ = _
  have hf1 : findSub (messageStartTag ++ ((hdr ++ headerEndTag) ++ rest))
      messageStartTag = some 0 := by
    unfold findSub
    rw [if_pos (List.isPrefixOf_iff_prefix.mpr (List.prefix_append _ _))]
  have hadv1 : advance ⟨.lookingForMessageStart,
      messageStartTag ++ ((hdr ++ headerEndTag) ++ rest)⟩
      = ([.messageStart], ⟨.parsingHeader, (hdr ++ headerEndTag) ++ rest⟩, true) := by
    simp only [advance, hf1, Nat.zero_add, List.drop_left]
  have hf2 : findSub ((hdr ++ headerEndTag) ++ rest) headerEndTag = some hdr.length :=
    findSub_append_some hhdr
  have htk : ((hdr ++ headerEndTag) ++ rest).take hdr.length = hdr := by
    rw [List.take_append_of_le_length (by simp),
      List.take_append_of_le_length le_rfl, List.take_length]
  have hdp : ((hdr ++ headerEndTag) ++ rest).drop (hdr.length + headerEndTag.length)
      = rest := by
    rw [show hdr.length + headerEndTag.length = (hdr ++ headerEndTag).length by simp,
      List.drop_left]
  have hadv2 : advance ⟨.parsingHeader, (hdr ++ headerEndTag) ++ rest⟩
      = ([.headerComplete (parseHeader hdr)], ⟨.parsingContent, rest⟩, true) := by
    simp only [advance, hf2, htk, hdp]
  rw [drive_continue hadv1, drive_continue hadv2]
  simp

/-- A clean content slice closed by `<|end|>` emits the content (if nonempty)
and `MessageEnd`, returning to `LookingForMessageStart` with an empty buffer. -/
theorem drive_content_end (content : List Char)
    (hcontent : findSub (content ++ messageEndTag) messageEndTag
      = some content.length) :
    drive ⟨.parsingContent, content ++ messageEndTag⟩
      = (optEmit content ++ [.messageEnd], ⟨.lookingForMessageStart, []⟩) := by
  have htk : (content ++ messageEndTag).take content.length = content := by
    rw [List.take_append_of_le_length le_rfl, List.take_length]
  have hdp : (content ++ messageEndTag).drop (content.length + messageEndTag.length)
      = [] := by
    rw [show content.length + messageEndTag.length = (content ++ messageEndTag).length
        by simp, List.drop_length]
  have hadv : advance ⟨.parsingContent, content ++ messageEndTag⟩
      = (optEmit content ++ [.messageEnd], ⟨.lookingForMessageStart, []⟩, true) := by
    simp only [advance, hcontent, htk, hdp]
  rw [drive_continue hadv, drive_nil]
  simp

/-! ### Claim C2 -/

/-- C2, counterexample: chunked feeding does not produce literally the same
event sequence as one-shot feeding — the partition
`"<|start|>u<|message|>ab" / "c<|end|>"` yields two `ContentEmitted` events
(`"ab"` then `"c"`) where the one-shot parse yields a single
`ContentEmitted "abc"`. -/
theorem C2_chunk_invariance_counterexample :
    (feedAll HarmonyParser.new
        ["<|start|>u<|message|>ab".toList, "c<|end|>".toList]).1
      ≠ (addContent HarmonyParser.new
          ("<|start|>u<|message|>ab".toList ++ "c<|end|>".toList)).1 := by
  decide

/-- C2 (amended): feeding any nonempty partition `c :: cs` of a byte string
chunk-by-chunk yields the same event sequence as feeding the concatenation at
once, up to coalescing adjacent `ContentEmitted` events (and the final parser
states are identical); and whenever `add_content` leaves the parser in
`ParsingContent`, the retained buffer is exactly a proper prefix of the end
tag `<|end|>`, the emitted content being everything before it. -/
theorem C2_chunk_invariance_coalesced :
    (∀ (p : HarmonyParser) (c : List Char) (cs : List (List Char)),
      coalesce (feedAll p (c :: cs)).1
        = coalesce (addContent p ((c :: cs).flatten)).1
      ∧ (feedAll p (c :: cs)).2 = (addContent p ((c :: cs).flatten)).2)
    ∧ (∀ (p : HarmonyParser) (chunk : List Char),
      ((addContent p chunk).2).state = .parsingContent →
      ((addContent p chunk).2).acc <+: messageEndTag
      ∧ ((addContent p chunk).2).acc.length < messageEndTag.length) := by
  constructor
  · intro p c cs
    exact feedAll_join cs p c
  · intro p chunk hst
    exact drive_residue (p.acc ++ chunk).length ⟨p.state, p.acc ++ chunk⟩ le_rfl hst

/-- C2 witness: a concrete chunk leaving the parser mid-content with the
partial end tag `"<|e"` retained. -/
theorem C2_chunk_invariance_coalesced_witness :
    ((addContent HarmonyParser.new "<|start|>u<|message|>abc<|e".toList).2).state
        = .parsingContent
    ∧ ((addContent HarmonyParser.new "<|start|>u<|message|>abc<|e".toList).2).acc
        <+: messageEndTag := by
  refine ⟨by decide, ?_⟩
  exact (C2_chunk_invariance_coalesced.2 HarmonyParser.new
    "<|start|>u<|message|>abc<|e".toList (by decide)).1

/-! ### Claim C3 -/

/-- C3, counterexample: the parser does not treat `<|call|>` as an end tag.
Feeding a tool-call message terminated by `<|call|>` emits the payload
(including the literal `<|call|>` text) as content and emits no `MessageEnd`
at that boundary. -/
theorem C3_call_terminator_counterexample :
    (addContent HarmonyParser.new
        "<|start|>assistant<|channel|>commentary to=functions.f<|message|>\x7b\"x\":1\x7d<|call|>".toList).1
      = [.messageStart,
          .headerComplete
            ⟨"assistant".toList, "commentary".toList, "functions.f".toList⟩,
          .contentEmitted "\x7b\"x\":1\x7d<|call|>".toList]
    ∧ HarmonyEvent.messageEnd ∉
        (addContent HarmonyParser.new
          "<|start|>assistant<|channel|>commentary to=functions.f<|message|>\x7b\"x\":1\x7d<|call|>".toList).1 := by
  decide

/-- C3 (amended): `<|call|>` is ordinary content to the parser.  A message
whose body contains `<|call|>` ends only at the next `<|end|>`, with the text
after `<|call|>` included in the same message's content; a stream that stops
at `<|call|>` with no `<|end|>` emits the payload as content but no
`MessageEnd` at all, staying in `ParsingContent`. -/
theorem C3_call_is_not_an_end_tag :
    (∀ hdr mid after : List Char,
      findSub (hdr ++ headerEndTag) headerEndTag = some hdr.length →
      findSub (mid ++ callTag ++ after ++ messageEndTag) messageEndTag
        = some (mid ++ callTag ++ after).length →
      addContent HarmonyParser.new
        (messageStartTag ++ hdr ++ headerEndTag ++ (mid ++ callTag ++ after)
          ++ messageEndTag)
        = ([.messageStart, .headerComplete (parseHeader hdr),
            .contentEmitted (mid ++ callTag ++ after), .messageEnd],
           ⟨.lookingForMessageStart, []⟩))
    ∧ (∀ hdr mid : List Char,
      findSub (hdr ++ headerEndTag) headerEndTag = some hdr.length →
      findSub (mid ++ callTag) messageEndTag = none →
      overlap (mid ++ callTag) messageEndTag = 0 →
      addContent HarmonyParser.new
        (messageStartTag ++ hdr ++ headerEndTag ++ (mid ++ callTag))
        = ([.messageStart, .headerComplete (parseHeader hdr),
            .contentEmitted (mid ++ callTag)],
           ⟨.parsingContent, []⟩)) := by
  constructor
  · intro hdr mid after hhdr hcontent
    have hne : mid ++ callTag ++ after ≠ [] := by
      intro hc
      simp only [List.append_eq_nil] at hc
      exact callTag_ne_nil hc.1.2
    have h1 := addContent_start_header hdr ((mid ++ callTag ++ after) ++ messageEndTag) hhdr
    have h2 := drive_content_end (mid ++ callTag ++ after) hcontent
    rw [show messageStartTag ++ hdr ++ headerEndTag ++ (mid ++ callTag ++ after)
          ++ messageEndTag
        = messageStartTag ++ hdr ++ headerEndTag
          ++ ((mid ++ callTag ++ after) ++ messageEndTag) by
      simp [List.append_assoc]]
    rw [h1, h2]
    simp [optEmit, callTag_ne_nil]
  · intro hdr mid hhdr hnone hov
    have hne : mid ++ callTag ≠ [] := by
      intro hc
      simp only [List.append_eq_nil] at hc
      exact callTag_ne_nil hc.2
    have h1 := addContent_start_header hdr (mid ++ callTag) hhdr
    have hadv : advance ⟨.parsingContent, mid ++ callTag⟩
        = (optEmit (mid ++ callTag), ⟨.parsingContent, []⟩, false) := by
      simp only [advance, hnone, hov, Nat.sub_zero]
      rw [List.take_length, List.drop_length]
    rw [show messageStartTag ++ hdr ++ headerEndTag ++ (mid ++ callTag)
        = messageStartTag ++ hdr ++ headerEndTag ++ (mid ++ callTag) from rfl]
    rw [h1, drive_stop hadv]
    simp [optEmit, callTag_ne_nil]

/-! ## Function-name map (src/harmony.rs, `FunctionNameMap`)

`HashMap<String, String>` is modelled as an association list whose insert
prepends (shadowing = overwrite); the source never iterates over the maps, so
only `get`/`contains_key` behaviour matters.
-/

/-- Association-list model of `HashMap<String, String>`. -/
abbrev SMap := List (List Char × List Char)

/-- `HashMap::insert` (overwrite modelled by shadowing). -/
def mapInsert (m : SMap) (k v : List Char) : SMap :=
  (k, v) :: m

/-- `HashMap::get`. -/
def mapGet (m : SMap) (k : List Char) : Option (List Char) :=
  match m with
  | [] => none
  | (k', v) :: rest => if k' = k then some v else mapGet rest k

/-- `HashMap::contains_key`. -/
def mapContains (m : SMap) (k : List Char) : Bool :=
  (mapGet m k).isSome

theorem mapGet_insert_self (m : SMap) (k v : List Char) :
    mapGet (mapInsert m k v) k = some v := by
  simp [mapInsert, mapGet]

theorem mapGet_insert_ne (m : SMap) (k v k' : List Char) (h : k ≠ k') :
    mapGet (mapInsert m k v) k' = mapGet m k' := by
  simp [mapInsert, mapGet, h]

theorem mapContains_of_get {m : SMap} {k v : List Char}
    (h : mapGet m k = some v) : mapContains m k = true := by
  simp [mapContains, h]

/-- Decimal rendering of the dedup counter (`format!("{original}_{count}")`),
digit characters `'0' + d`. -/
def natToCharsAux : Nat → Nat → List Char
  | 0, _ => []
  | f + 1, n =>
    if n < 10 then [Char.ofNat (48 + n)]
    else natToCharsAux f (n / 10) ++ [Char.ofNat (48 + n % 10)]

/-- Decimal rendering of a natural number. -/
def natToChars (n : Nat) : List Char :=
  natToCharsAux (n + 1) n

theorem natToCharsAux_congr : ∀ (f1 f2 n : Nat), n < f1 → n < f2 →
    natToCharsAux f1 n = natToCharsAux f2 n := by
  intro f1
  induction f1 with
  | zero => omega
  | succ f1 ih =>
    intro f2 n h1 h2
    match f2 with
    | f2 + 1 =>
      simp only [natToCharsAux]
      split
      · rfl
      · rw [ih f2 (n / 10) (by omega) (by omega)]

/-- Reading the decimal digits back (for injectivity of `natToChars`). -/
def charsVal (s : List Char) : Nat :=
  s.foldl (fun a c => a * 10 + (c.toNat - 48)) 0

theorem charsVal_append (a b : List Char) :
    charsVal (a ++ b) = b.foldl (fun a c => a * 10 + (c.toNat - 48)) (charsVal a) := by
  simp [charsVal, List.foldl_append]

theorem charsVal_natToChars : ∀ n, charsVal (natToChars n) = n := by
  intro n
  induction n using Nat.strong_induction_on with
  | _ n ih =>
    unfold natToChars natToCharsAux
    split
    next hlt =>
      have hc : (Char.ofNat (48 + n)).toNat = 48 + n := by
        interval_cases n <;> decide
      simp [charsVal, hc]
    next hge =>
      push_neg at hge
      have hrec : natToCharsAux n (n / 10) = natToChars (n / 10) := by
        unfold natToChars
        exact natToCharsAux_congr n (n / 10 + 1) (n / 10) (by omega) (by omega)
      rw [hrec, charsVal_append]
      have hmod : n % 10 < 10 := Nat.mod_lt _ (by omega)
      have hc : (Char.ofNat (48 + n % 10)).toNat = 48 + n % 10 := by
        set r := n % 10 with hr
        interval_cases r <;> decide
      simp only [List.foldl_cons, List.foldl_nil, hc]
      rw [ih (n / 10) (by omega)]
      omega

theorem natToChars_injective : Function.Injective natToChars := by
  intro a b h
  have := charsVal_natToChars a
  rw [h, charsVal_natToChars] at this
  omega

/-- Candidate produced for dedup count `count`: `format!("{original}_{count}")`. -/
def nameCandidate (orig : List Char) (count : Nat) : List Char :=
  orig ++ '_' :: natToChars count

theorem nameCandidate_injective (orig : List Char) :
    Function.Injective (nameCandidate orig) := by
  intro a b h
  unfold nameCandidate at h
  have := List.append_cancel_left h
  exact natToChars_injective (List.cons.injEq .. ▸ this).2

/-- There is always some dedup count whose candidate is absent from the
finite map (pigeonhole over the key list). -/
theorem exists_free_candidate (m : SMap) (orig : List Char) :
    ∃ k, mapContains m (nameCandidate orig (k + 2)) = false := by
  by_contra hc
  push_neg at hc
  have hmem : ∀ k, nameCandidate orig (k + 2) ∈ (List.map Prod.fst m) := by
    intro k
    have h1 := hc k
    rw [Bool.ne_false_iff] at h1
    simp only [mapContains, Option.isSome_iff_exists] at h1
    obtain ⟨v, hv⟩ := h1
    clear hc
    induction m with
    | nil => simp [mapGet] at hv
    | cons kv rest ih =>
      rw [mapGet] at hv
      split at hv
      next heq =>
        simp [heq]
      next =>
        simp only [List.map_cons, List.mem_cons]
        exact Or.inr (ih hv)
  set l := List.map Prod.fst m with hl
  have hinj : Set.InjOn (fun k => nameCandidate orig (k + 2))
      (Finset.range (l.length + 1)) := by
    intro a _ b _ hab
    have := nameCandidate_injective orig hab
    omega
  have hcard := Finset.card_le_card_of_injOn (fun k => nameCandidate orig (k + 2))
    (fun k _ => List.mem_toFinset.mpr (hmem k)) hinj
  rw [Finset.card_range] at hcard
  have := List.toFinset_card_le l
  omega

/-- `FunctionNameMap` from src/harmony.rs. -/
structure FunctionNameMap where
  user_to_harmony : SMap
  harmony_to_user : SMap
  deriving DecidableEq

/-- `FunctionNameMap::new`. -/
def FunctionNameMap.new : FunctionNameMap := ⟨[], []⟩

/-- `FunctionNameMap::convert_to_valid_chars`, parameterized by the
`unicode_ident` crate's XID predicates (external to the repository). -/
def convertToValidChars (xidS xidC : Char → Bool) (name : List Char) : List Char :=
  let out := name.filterMap fun ch =>
    if ch = ' ' ∨ ch = '-' ∨ ch = '.' then some '_'
    else if ch = '_' ∨ ch = '$' ∨ ch.isAlphanum ∨ xidS ch ∨ xidC ch then some ch
    else none
  match out with
  | [] => "unnamed".toList
  | c :: _ => if c.isDigit then '_' :: out else out

/-- `FunctionNameMap::derive_name`: first free candidate among
`original, original_2, original_3, …` — the least free dedup count is chosen,
exactly as the source's `loop`. -/
def deriveName (xidS xidC : Char → Bool) (m : FunctionNameMap)
    (userFunctionName : List Char) : List Char :=
  if mapContains m.harmony_to_user (convertToValidChars xidS xidC userFunctionName) then
    nameCandidate (convertToValidChars xidS xidC userFunctionName)
      (Nat.find (exists_free_candidate m.harmony_to_user
        (convertToValidChars xidS xidC userFunctionName)) + 2)
  else convertToValidChars xidS xidC userFunctionName

theorem deriveName_fresh (xidS xidC : Char → Bool) (m : FunctionNameMap)
    (u : List Char) :
    mapContains m.harmony_to_user (deriveName xidS xidC m u) = false := by
  unfold deriveName
  split
  · exact Nat.find_spec (exists_free_candidate m.harmony_to_user _)
  · simp_all

/-- The four built-in tool names that pass through unchanged. -/
def isBuiltin (u : List Char) : Bool :=
  u = "browser.open".toList || u = "browser.search".toList
    || u = "browser.find".toList || u = "python".toList

/-- `FunctionNameMap::convert_and_add`.  The source computes `derive_name`
first and then overwrites the result for built-ins; `derive_name` is pure, so
the conditional below yields the same value. -/
def convertAndAdd (xidS xidC : Char → Bool) (m : FunctionNameMap)
    (userFunctionName : List Char) : List Char × FunctionNameMap :=
  let harmony :=
    if isBuiltin userFunctionName then userFunctionName
    else deriveName xidS xidC m userFunctionName
  (harmony,
    ⟨mapInsert m.user_to_harmony userFunctionName harmony,
      mapInsert m.harmony_to_user harmony userFunctionName⟩)

/-- `FunctionNameMap::original_from_converted`. -/
def originalFromConverted (m : FunctionNameMap) (harmonyFunctionName : List Char) :
    List Char :=
  match mapGet m.harmony_to_user harmonyFunctionName with
  | some user => user
  | none => harmonyFunctionName

/-- Run `convert_and_add` over a whole list of names, collecting outputs. -/
def convertAndAddAll (xidS xidC : Char → Bool) (m : FunctionNameMap) :
    List (List Char) → List (List Char) × FunctionNameMap
  | [] => ([], m)
  | u :: us =>
    let r := convertAndAdd xidS xidC m u
    let rest := convertAndAddAll xidS xidC r.2 us
    (r.1 :: rest.1, rest.2)

/-- The collision precondition the counterexample forces: no built-in name is
added after a distinct earlier name whose converted output equals it. -/
def SafeRun (xidS xidC : Char → Bool) : FunctionNameMap → List (List Char) → Prop
  | _, [] => True
  | m, u :: rest =>
    (∀ x ∈ rest, isBuiltin x = true → u ≠ x → (convertAndAdd xidS xidC m u).1 ≠ x)
    ∧ SafeRun xidS xidC (convertAndAdd xidS xidC m u).2 rest

instance safeRunDecidable (xidS xidC : Char → Bool) :
    ∀ (m : FunctionNameMap) (L : List (List Char)),
      Decidable (SafeRun xidS xidC m L)
  | _, [] => .isTrue trivial
  | m, u :: rest =>
    haveI := safeRunDecidable xidS xidC (convertAndAdd xidS xidC m u).2 rest
    inferInstanceAs (Decidable (_ ∧ _))

theorem convertAndAddAll_roundTrip (xidS xidC : Char → Bool) :
    ∀ (L : List (List Char)) (m : FunctionNameMap)
      (pairs : List (List Char × List Char)),
      (∀ p ∈ pairs, mapGet m.harmony_to_user p.2 = some p.1) →
      (∀ p ∈ pairs, ∀ x ∈ L, isBuiltin x = true → p.1 ≠ x → p.2 ≠ x) →
      SafeRun xidS xidC m L →
      ∀ p ∈ pairs ++ L.zip (convertAndAddAll xidS xidC m L).1,
        mapGet (convertAndAddAll xidS xidC m L).2.harmony_to_user p.2 = some p.1 := by
  intro L
  induction L with
  | nil =>
    intro m pairs hInv _ _ p hp
    simp only [convertAndAddAll, List.zip_nil_right, List.append_nil] at hp ⊢
    exact hInv p hp
  | cons u rest ih =>
    intro m pairs hInv hSafe hRun p hp
    obtain ⟨hHead, hTail⟩ := hRun
    set r := convertAndAdd xidS xidC m u with hr
    -- the new map after inserting `u ↦ r.1`
    have hInv' : ∀ q ∈ pairs ++ [(u, r.1)],
        mapGet r.2.harmony_to_user q.2 = some q.1 := by
      intro q hq
      rw [List.mem_append] at hq
      rcases hq with hq | hq
      · -- an old pair survives the insert
        have hold := hInv q hq
        have hr2 : r.2.harmony_to_user = mapInsert m.harmony_to_user r.1 u := by
          rw [hr]
          rfl
        rw [hr2]
        by_cases hcollide : r.1 = q.2
        · -- the new harmony name collides with an old one
          by_cases hb : isBuiltin u
          · -- built-in: only a re-add of the same pair is possible
            have hru : r.1 = u := by
              rw [hr]
              simp [convertAndAdd, hb]
            have hq1 : q.1 = u := by
              by_contra hne
              exact hSafe q hq u (by simp) (by simpa using hb) hne (hcollide ▸ hru)
            rw [← hcollide, hru, mapGet_insert_self, hq1]
          · -- non-built-in: `derive_name` freshness rules the collision out
            exfalso
            have hfresh : mapContains m.harmony_to_user r.1 = false := by
              rw [hr]
              simpa [convertAndAdd, hb] using deriveName_fresh xidS xidC m u
            rw [hcollide] at hfresh
            rw [mapContains_of_get hold] at hfresh
            simp at hfresh
        · rw [mapGet_insert_ne _ _ _ _ hcollide]
          exact hold
      · -- the new pair itself
        simp only [List.mem_singleton] at hq
        subst hq
        have hr2 : r.2.harmony_to_user = mapInsert m.harmony_to_user r.1 u := by
          rw [hr]
          rfl
        rw [hr2, mapGet_insert_self]
    have hSafe' : ∀ q ∈ pairs ++ [(u, r.1)], ∀ x ∈ rest,
        isBuiltin x = true → q.1 ≠ x → q.2 ≠ x := by
      intro q hq x hx hbx hne
      rw [List.mem_append] at hq
      rcases hq with hq | hq
      · exact hSafe q hq x (by simp [hx]) hbx hne
      · simp only [List.mem_singleton] at hq
        subst hq
        exact hHead x hx hbx hne
    have hrec := ih r.2 (pairs ++ [(u, r.1)]) hInv' hSafe' hTail
    have hall : convertAndAddAll xidS xidC m (u :: rest)
        = (r.1 :: (convertAndAddAll xidS xidC r.2 rest).1,
            (convertAndAddAll xidS xidC r.2 rest).2) := by
      rw [hr]
      rfl
    rw [hall] at hp ⊢
    apply hrec
    rw [List.mem_append] at hp
    rcases hp with h | h
    · simp [h]
    · rw [List.zip_cons_cons, List.mem_cons] at h
      rcases h with h | h
      · simp [h]
      · simp [h]

/-! ### Claim C5 -/

/-- C5, counterexample: built-ins bypass the dedup check, so adding
`"python!"` (which sanitizes to `"python"`; `'!'` is not an XID character)
followed by the built-in `"python"` gives two distinct inputs the same
converted output, and the round trip of the first addition is broken:
`original_from_converted("python") = "python" ≠ "python!"`. -/
theorem C5_name_map_counterexample :
    (convertAndAddAll (fun _ => false) (fun _ => false) FunctionNameMap.new
        ["python!".toList, "python".toList]).1
      = ["python".toList, "python".toList]
    ∧ "python!".toList ≠ "python".toList
    ∧ originalFromConverted
        (convertAndAddAll (fun _ => false) (fun _ => false) FunctionNameMap.new
          ["python!".toList, "python".toList]).2 "python".toList
      = "python".toList := by
  decide

/-- C5 (amended): for every run of `convert_and_add` over a list of names in
which no built-in name is added after a distinct earlier name whose converted
output equals it (`SafeRun`), the final map round-trips every added name
(`original_from_converted(convert_and_add(x)) = x`) and distinct inputs yield
distinct converted outputs.  Without that restriction the built-in bypass
breaks both properties. -/
theorem C5_name_map_bijection (xidS xidC : Char → Bool) (L : List (List Char))
    (hsafe : SafeRun xidS xidC FunctionNameMap.new L) :
    (∀ p ∈ L.zip (convertAndAddAll xidS xidC FunctionNameMap.new L).1,
      originalFromConverted (convertAndAddAll xidS xidC FunctionNameMap.new L).2 p.2
        = p.1)
    ∧ (∀ p q,
        p ∈ L.zip (convertAndAddAll xidS xidC FunctionNameMap.new L).1 →
        q ∈ L.zip (convertAndAddAll xidS xidC FunctionNameMap.new L).1 →
        p.1 ≠ q.1 → p.2 ≠ q.2) := by
  have hrt := convertAndAddAll_roundTrip xidS xidC L FunctionNameMap.new []
    (by simp) (by simp) hsafe
  simp only [List.nil_append] at hrt
  constructor
  · intro p hp
    unfold originalFromConverted
    rw [hrt p hp]
  · intro p q hp hq hne heq
    have h1 := hrt p hp
    have h2 := hrt q hq
    rw [heq, h2] at h1
    simp at h1
    exact hne h1.symm

/-- C5 witness: a safe mix of user names and the built-in `python` where the
round trip holds concretely. -/
theorem C5_name_map_bijection_witness :
    SafeRun (fun _ => false) (fun _ => false) FunctionNameMap.new
      ["get weather".toList, "python".toList, "something-different".toList]
    ∧ originalFromConverted
        (convertAndAddAll (fun _ => false) (fun _ => false) FunctionNameMap.new
          ["get weather".toList, "python".toList, "something-different".toList]).2
        "get_weather".toList
      = "get weather".toList := by
  refine ⟨by decide, ?_⟩
  have h := (C5_name_map_bijection (fun _ => false) (fun _ => false)
    ["get weather".toList, "python".toList, "something-different".toList]
    (by decide)).1
  have h2 := h ("get weather".toList, "get_weather".toList) (by decide)
  simpa using h2

/-- C3 witness: concrete instantiation of the call-terminated case at
`"<|start|>assistant<|channel|>commentary to=functions.f<|message|>{}<|call|>"`. -/
theorem C3_call_is_not_an_end_tag_witness :
    addContent HarmonyParser.new
      (messageStartTag ++ "assistant<|channel|>commentary to=functions.f".toList
        ++ headerEndTag ++ ("{}".toList ++ callTag))
      = ([.messageStart,
          .headerComplete
            (parseHeader "assistant<|channel|>commentary to=functions.f".toList),
          .contentEmitted ("{}".toList ++ callTag)],
         ⟨.parsingContent, []⟩) :=
  C3_call_is_not_an_end_tag.2
    "assistant<|channel|>commentary to=functions.f".toList "{}".toList
    (by decide) (by decide) (by decide)

/-! ## Harmony message handler (src/harmony.rs, `HarmonyMessageHandler`)

`serde_json::Value` is modelled by the `Json` inductive; JSON parsing and
serialization are external library behaviour and are taken as parameters of
the functions that use them.
-/

/-- Model of `serde_json::Value`. -/
inductive Json where
  | null : Json
  | bool : Bool → Json
  | num : Int → Json
  | str : List Char → Json
  | arr : List Json → Json
  | obj : List (List Char × Json) → Json

/-- `ToolCallFunction` from src/harmony.rs. -/
structure ToolCallFunction where
  name : List Char
  arguments : Json

/-- `ToolCall` from src/harmony.rs. -/
structure ToolCall where
  function : ToolCallFunction

/-- `ToolFunction` from src/harmony.rs. -/
structure ToolFunction where
  name : Option (List Char)
  deriving DecidableEq, Repr

/-- `Tool` from src/harmony.rs. -/
structure Tool where
  function : ToolFunction
  deriving DecidableEq, Repr

/-- `LastMessage` from src/harmony.rs. -/
structure LastMessage where
  role : List Char
  content : List Char
  thinking : List Char
  deriving DecidableEq, Repr

/-- `MessageState` from src/harmony.rs. -/
inductive MessageState where
  | answering : MessageState
  | thinking : MessageState
  | toolCalling : MessageState
  deriving DecidableEq, Repr

/-- `HarmonyToolCallAccumulator` from src/harmony.rs. -/
structure HarmonyToolCallAccumulator where
  acc : List Char
  current_tool_name : Option (List Char)
  deriving DecidableEq, Repr

/-- `HarmonyMessageHandler` from src/harmony.rs (`converted_tools` is a
`HashMap<String, ()>`, i.e. a set of keys, only ever inserted into). -/
structure HarmonyMessageHandler where
  state : MessageState
  parser : HarmonyParser
  function_name_map : FunctionNameMap
  tool_accumulator : HarmonyToolCallAccumulator
  converted_tools : List (List Char)
  deriving DecidableEq

/-- `HarmonyMessageHandler::new`. -/
def HarmonyMessageHandler.new : HarmonyMessageHandler :=
  ⟨.answering, HarmonyParser.new, FunctionNameMap.new, ⟨[], none⟩, []⟩

/-- `HarmonyParser::add_implicit_start_or_prefill`. -/
def addImplicitStartOrPrefill (p : HarmonyParser) (last : Option LastMessage) :
    HarmonyParser :=
  match last with
  | some m =>
    if m.role = "assistant".toList then
      if m.content ≠ [] then
        ⟨p.state, p.acc ++ "<|start|>assistant<|channel|>final<|message|>".toList⟩
      else if m.thinking ≠ [] then
        ⟨p.state, p.acc ++ "<|start|>assistant<|channel|>analysis<|message|>".toList⟩
      else addImplicitStart p
    else addImplicitStart p
  | none => addImplicitStart p

/-- The per-tool name normalization of `HarmonyMessageHandler::init`. -/
def initTools (xidS xidC : Char → Bool) :
    FunctionNameMap → List (List Char) → List Tool →
      List Tool × FunctionNameMap × List (List Char)
  | m, ct, [] => ([], m, ct)
  | m, ct, t :: ts =>
    match t.function.name with
    | some n =>
      let r := convertAndAdd xidS xidC m n
      let rest := initTools xidS xidC r.2 (n :: ct) ts
      (⟨⟨some r.1⟩⟩ :: rest.1, rest.2)
    | none =>
      let rest := initTools xidS xidC m ct ts
      (t :: rest.1, rest.2)

/-- `HarmonyMessageHandler::init`: prefill the parser, reset the tool
accumulator, and normalize the tool names. -/
def handlerInit (xidS xidC : Char → Bool) (h : HarmonyMessageHandler)
    (tools : List Tool) (last : Option LastMessage) :
    List Tool × HarmonyMessageHandler :=
  let parser' := addImplicitStartOrPrefill h.parser last
  let h1 := { h with parser := parser', tool_accumulator := ⟨[], none⟩ }
  if tools = [] then (tools, h1)
  else
    let r := initTools xidS xidC h1.function_name_map h1.converted_tools tools
    (r.1, { h1 with function_name_map := r.2.1, converted_tools := r.2.2 })

/-- Running state of `HarmonyMessageHandler::add`'s event loop: the handler's
`MessageState`, the accumulator's pending tool name, and the three local
buffers `content` / `thinking` / `tool_payload`. -/
structure AddLoopState where
  state : MessageState
  toolName : Option (List Char)
  content : List Char
  thinking : List Char
  toolPayload : List Char
  deriving DecidableEq, Repr

/-- One iteration of the `for ev in events` loop of
`HarmonyMessageHandler::add`. -/
def routeEvent (st : AddLoopState) (ev : HarmonyEvent) : AddLoopState :=
  match ev with
  | .headerComplete header =>
    if header.channel = "analysis".toList then
      if header.recipient ≠ [] then
        { st with state := .toolCalling, toolName := some header.recipient }
      else
        { st with state := .thinking }
    else if header.channel = "commentary".toList then
      if header.recipient ≠ [] then
        { st with state := .toolCalling, toolName := some header.recipient }
      else
        -- Route to final answer stream
        { st with state := .answering }
    else if header.channel = "final".toList then
      { st with state := .answering }
    else st
  | .contentEmitted c =>
    match st.state with
    | .answering => { st with content := st.content ++ c }
    | .thinking => { st with thinking := st.thinking ++ c }
    | .toolCalling => { st with toolPayload := st.toolPayload ++ c }
  | .messageEnd => { st with state := .answering }
  | .messageStart => st

/-- The `name.strip_prefix("functions.")` step of the finalization in
`HarmonyMessageHandler::add`. -/
def finalStrippedName (name : List Char) : List Char :=
  match stripPrefix name "functions.".toList with
  | some r => r
  | none => name

/-- `HarmonyMessageHandler::add`, parameterized by `serde_json::from_str`
(`parseJson`).  Returns the `(content, thinking, calls)` result (or the
parse-error string) together with the mutated handler. -/
def handlerAdd (parseJson : List Char → Except (List Char) Json)
    (h : HarmonyMessageHandler) (s : List Char) (done : Bool) :
    Except (List Char) (List Char × List Char × List ToolCall)
      × HarmonyMessageHandler :=
  let pr := addContent h.parser s
  let ls := pr.1.foldl routeEvent
    ⟨h.state, h.tool_accumulator.current_tool_name, [], [], []⟩
  let acc1 :=
    if ls.toolPayload = [] then h.tool_accumulator.acc
    else h.tool_accumulator.acc ++ ls.toolPayload
  if done then
    -- drain the accumulator, then finalize the single tool call
    match ls.toolName with
    | some name0 =>
      let name1 := finalStrippedName name0
      let name2 := originalFromConverted h.function_name_map name1
      match parseJson acc1 with
      | .error e =>
        (.error ("error parsing tool call: raw='".toList ++ acc1
            ++ "', err=".toList ++ e),
          { h with state := ls.state, parser := pr.2, tool_accumulator := ⟨[], none⟩ })
      | .ok args =>
        (.ok (ls.content, ls.thinking, [⟨⟨name2, args⟩⟩]),
          { h with state := ls.state, parser := pr.2, tool_accumulator := ⟨[], none⟩ })
    | none =>
      (.ok (ls.content, ls.thinking, []),
        { h with state := ls.state, parser := pr.2, tool_accumulator := ⟨[], none⟩ })
  else
    (.ok (ls.content, ls.thinking, []),
      { h with
          state := ls.state
          parser := pr.2
          tool_accumulator := ⟨acc1, ls.toolName⟩ })

/-! ### Claim C4 -/

/-- C4, counterexample: a header with channel `final` and non-empty recipient
`to=functions.echo` does not enter ToolCalling — the payload is routed to the
answer buffer and the tool-call accumulator stays empty. -/
theorem C4_router_counterexample :
    (handlerAdd (fun _ => Except.error [])
        (handlerInit (fun _ => false) (fun _ => false)
          HarmonyMessageHandler.new [] none).2
        "<|channel|>final to=functions.echo<|message|>PAYLOAD<|end|>".toList
        false).1
      = .ok ("PAYLOAD".toList, [], [])
    ∧ (handlerAdd (fun _ => Except.error [])
        (handlerInit (fun _ => false) (fun _ => false)
          HarmonyMessageHandler.new [] none).2
        "<|channel|>final to=functions.echo<|message|>PAYLOAD<|end|>".toList
        false).2.tool_accumulator
      = ⟨[], none⟩ :=
  ⟨rfl, rfl⟩

/-- C4 (amended): a non-empty recipient triggers ToolCalling only on the
`analysis` and `commentary` channels, where the raw recipient is recorded as
the pending tool name (the `functions.` prefix is stripped and the name map
applied at finalization, not at recording time) and subsequent content
accumulates into the tool-call payload; on `final` the router enters
Answering regardless of recipient, and any other channel leaves the state
unchanged. -/
theorem C4_router_toolcalling :
    (∀ (st : AddLoopState) (hd : HarmonyHeader),
      (hd.channel = "analysis".toList ∨ hd.channel = "commentary".toList) →
      hd.recipient ≠ [] →
      routeEvent st (.headerComplete hd)
        = { st with state := .toolCalling, toolName := some hd.recipient })
    ∧ (∀ (st : AddLoopState) (c : List Char), st.state = .toolCalling →
      routeEvent st (.contentEmitted c)
        = { st with toolPayload := st.toolPayload ++ c })
    ∧ (∀ (st : AddLoopState) (hd : HarmonyHeader),
      hd.channel = "final".toList →
      routeEvent st (.headerComplete hd) = { st with state := .answering })
    ∧ (∀ (st : AddLoopState) (hd : HarmonyHeader),
      hd.channel ≠ "analysis".toList → hd.channel ≠ "commentary".toList →
      hd.channel ≠ "final".toList →
      routeEvent st (.headerComplete hd) = st)
    ∧ (∀ (parseJson : List Char → Except (List Char) Json)
        (h : HarmonyMessageHandler) (raw name : List Char) (v : Json),
      h.tool_accumulator = ⟨raw, some name⟩ →
      addContent h.parser [] = ([], h.parser) →
      parseJson raw = .ok v →
      (handlerAdd parseJson h [] true).1
        = .ok ([], [],
            [⟨⟨originalFromConverted h.function_name_map (finalStrippedName name),
                v⟩⟩])) := by
  refine ⟨?_, ?_, ?_, ?_, ?_⟩
  · intro st hd hchan hrcpt
    have hne : "commentary".toList ≠ "analysis".toList := by decide
    rcases hchan with h | h <;> simp [routeEvent, h, hrcpt, hne]
  · intro st c hst
    simp [routeEvent, hst]
  · intro st hd hchan
    have h1 : "final".toList ≠ "analysis".toList := by decide
    have h2 : "final".toList ≠ "commentary".toList := by decide
    simp [routeEvent, hchan, h1, h2]
  · intro st hd h1 h2 h3
    simp only [routeEvent]
    rw [if_neg h1, if_neg h2, if_neg h3]
  · intro parseJson h raw name v hacc hpar hjson
    unfold handlerAdd
    rw [hpar, hacc]
    simp [hjson]

/-- C4 witness: finalizing a pending `functions.list_files` call with raw
JSON `{"a":1}` yields a single tool call named `list_files`. -/
theorem C4_router_toolcalling_witness :
    (handlerAdd
        (fun s => if s = "\x7b\"a\":1\x7d".toList
          then .ok (Json.obj [("a".toList, Json.num 1)]) else .error [])
        { HarmonyMessageHandler.new with
            tool_accumulator :=
              ⟨"\x7b\"a\":1\x7d".toList, some "functions.list_files".toList⟩ }
        [] true).1
      = .ok ([], [],
          [⟨⟨"list_files".toList, Json.obj [("a".toList, Json.num 1)]⟩⟩]) := by
  have h := C4_router_toolcalling.2.2.2.2
    (fun s => if s = "\x7b\"a\":1\x7d".toList
      then .ok (Json.obj [("a".toList, Json.num 1)]) else .error [])
    { HarmonyMessageHandler.new with
        tool_accumulator :=
          ⟨"\x7b\"a\":1\x7d".toList, some "functions.list_files".toList⟩ }
    "\x7b\"a\":1\x7d".toList "functions.list_files".toList
    (Json.obj [("a".toList, Json.num 1)])
    rfl rfl (by simp)
  exact h

/-! ## Protocol messages and the turn engine (src/protocol.rs, src/cli/turn.rs)

`attempt_turn_on_stream` is modelled over a script: the list of subturn
frame-lists the hub would answer with (one list per `Request` sent, each
ending at its `Stop`).  JSON parsing/serialization, the approval gate and
tool invocation are parameters.  Display calls are best-effort side effects
and are dropped.
-/

/-- `Message` from src/protocol.rs. -/
inductive Message where
  | system : List Char → Message
  | developer : List Char → Message
  | user : List Char → Message
  | reasoning : List Char → Message
  | tool : List Char → Message
  | assistant : List Char → Message
  deriving DecidableEq, Repr

/-- `Frame` from src/protocol.rs. -/
inductive Frame where
  | request : List Message → Frame
  | log : List Char → Frame
  | answer : List Char → Frame
  | stop : Frame
  deriving DecidableEq, Repr

/-- The local `Phase` enum of `attempt_turn_on_stream`. -/
inductive Phase where
  | answering : Phase
  | thinking : Phase
  | toolCalling : Phase
  deriving DecidableEq, Repr

/-- Display-side per-subturn state of `attempt_turn_on_stream`:
`phase`, `final_answer`, `did_send_answer_end`. -/
structure DisplayState where
  phase : Phase
  finalAnswer : List Char
  didSendAnswerEnd : Bool
  deriving DecidableEq, Repr

/-- One iteration of the display event loop in `attempt_turn_on_stream`. -/
def displayStep (d : DisplayState) (ev : HarmonyEvent) : DisplayState :=
  match ev with
  | .headerComplete header =>
    if header.recipient ≠ [] then { d with phase := .toolCalling }
    else if header.channel = "analysis".toList then { d with phase := .thinking }
    else if header.channel = "commentary".toList
        ∨ header.channel = "final".toList then { d with phase := .answering }
    else d
  | .contentEmitted c =>
    match d.phase with
    | .toolCalling => d
    | .answering => { d with finalAnswer := d.finalAnswer ++ c }
    | .thinking => d
  | .messageEnd =>
    match d.phase with
    | .answering => { d with didSendAnswerEnd := true, phase := .answering }
    | _ => { d with phase := .answering }
  | .messageStart => d

/-- Whole per-subturn state of `attempt_turn_on_stream`: the display state,
the display parser, the tool handler, and the accumulated `answer` /
`reasoning` strings. -/
structure SubturnState where
  display : DisplayState
  parser : HarmonyParser
  handler : HarmonyMessageHandler
  answer : List Char
  reasoning : List Char

/-- Processing of one received frame inside a subturn. -/
def processFrame (parseJson : List Char → Except (List Char) Json)
    (st : SubturnState) : Frame → SubturnState
  | .log _ => st
  | .request _ => st
  | .stop => st
  | .answer delta =>
    let pr := addContent st.parser delta
    let disp := pr.1.foldl displayStep st.display
    let hres := handlerAdd parseJson st.handler delta false
    let at_ :=
      match hres.1 with
      | .ok (a, t, _) => (a, t)
      | .error _ => ([], [])
    { display := disp, parser := pr.2, handler := hres.2,
      answer := st.answer ++ at_.1, reasoning := st.reasoning ++ at_.2 }

/-- The inner frame loop: consume frames until the `Stop` frame. -/
def runSubturnFrames (parseJson : List Char → Except (List Char) Json)
    (st : SubturnState) : List Frame → SubturnState
  | [] => st
  | .stop :: _ => st
  | f :: rest => runSubturnFrames parseJson (processFrame parseJson st f) rest

/-- Fresh per-subturn state: display parser with implicit start, handler
initialized with the tool specs. -/
def subturnInit (xidS xidC : Char → Bool) (toolSpecs : List Tool) : SubturnState :=
  ⟨⟨.answering, [], false⟩,
    addImplicitStart HarmonyParser.new,
    (handlerInit xidS xidC HarmonyMessageHandler.new toolSpecs none).2,
    [], []⟩

/-- History entry for one executed (or denied) tool call. -/
def toolMsgJson (jsonToString : Json → List Char) (name : List Char)
    (args result : Json) : Message :=
  .tool (jsonToString (.obj [("tool".toList, .str name),
    ("arguments".toList, args), ("result".toList, result)]))

/-- The tool-execution loop at the end of a subturn. -/
def execCalls (approve : List Char → Json → Bool)
    (invoke : List Char → Json → Json) (jsonToString : Json → List Char)
    (msgs : List Message) : List ToolCall → List Message
  | [] => msgs
  | c :: cs =>
    let name := c.function.name
    let args := c.function.arguments
    if approve name args then
      execCalls approve invoke jsonToString
        (msgs ++ [toolMsgJson jsonToString name args (invoke name args)]) cs
    else
      execCalls approve invoke jsonToString
        (msgs ++ [toolMsgJson jsonToString name args
          (.obj [("error".toList, .str "user denied".toList)])]) cs

/-- `attempt_turn_on_stream`, modelled over per-subturn frame scripts.
Returns `(result, number of Request frames sent, final history)`; `none`
means the scripted subturns ran out while the loop would continue. -/
def attemptTurn (xidS xidC : Char → Bool)
    (parseJson : List Char → Except (List Char) Json)
    (approve : List Char → Json → Bool) (invoke : List Char → Json → Json)
    (jsonToString : Json → List Char) (toolSpecs : List Tool) :
    List Message → List (List Frame) → Option (List Char) × Nat × List Message
  | msgs, [] => (none, 0, msgs)
  | msgs, script :: rest =>
    let st := runSubturnFrames parseJson (subturnInit xidS xidC toolSpecs) script
    match (handlerAdd parseJson st.handler [] true).1 with
    | .error e =>
      -- surface the parse error into history, then keep looping
      let m1 := msgs ++ [.tool (jsonToString
        (.obj [("tool".toList, .str "tool_call_parse_error".toList),
          ("result".toList, .obj [("error".toList, .str e)])]))]
      let m2 := m1 ++ (if st.reasoning = [] then [] else [.reasoning st.reasoning])
      let m3 := m2 ++ (if st.answer = [] then [] else [.assistant st.answer])
      let r := attemptTurn xidS xidC parseJson approve invoke jsonToString
        toolSpecs m3 rest
      (r.1, r.2.1 + 1, r.2.2)
    | .ok (_, _, calls) =>
      let m2 := msgs ++ (if st.reasoning = [] then [] else [.reasoning st.reasoning])
      let m3 := m2 ++ (if st.answer = [] then [] else [.assistant st.answer])
      match calls with
      | [] =>
        -- the turn is complete: return the collected final answer
        (some st.display.finalAnswer, 1, m3)
      | _ :: _ =>
        let m4 := execCalls approve invoke jsonToString m3 calls
        let r := attemptTurn xidS xidC parseJson approve invoke jsonToString
          toolSpecs m4 rest
        (r.1, r.2.1 + 1, r.2.2)

/-! ### Claim C9 -/

/-- C9: if the router's finalization for a subturn yields zero tool calls
with no parse error, `attempt_turn_on_stream` returns that subturn's
collected final answer after having sent exactly one Request (the current
one) — independent of whatever the hub would have answered later. -/
theorem C9_turn_termination (xidS xidC : Char → Bool)
    (parseJson : List Char → Except (List Char) Json)
    (approve : List Char → Json → Bool) (invoke : List Char → Json → Json)
    (jsonToString : Json → List Char) (toolSpecs : List Tool)
    (msgs : List Message) (script : List Frame) (rest : List (List Frame))
    (a t : List Char)
    (hfin : (handlerAdd parseJson
        (runSubturnFrames parseJson (subturnInit xidS xidC toolSpecs) script).handler
        [] true).1 = .ok (a, t, [])) :
    attemptTurn xidS xidC parseJson approve invoke jsonToString toolSpecs
        msgs (script :: rest)
      = (some (runSubturnFrames parseJson (subturnInit xidS xidC toolSpecs)
            script).display.finalAnswer,
          1,
          (msgs ++ (if (runSubturnFrames parseJson (subturnInit xidS xidC toolSpecs)
                script).reasoning = [] then []
              else [.reasoning (runSubturnFrames parseJson
                (subturnInit xidS xidC toolSpecs) script).reasoning]))
            ++ (if (runSubturnFrames parseJson (subturnInit xidS xidC toolSpecs)
                script).answer = [] then []
              else [.assistant (runSubturnFrames parseJson
                (subturnInit xidS xidC toolSpecs) script).answer])) := by
  unfold attemptTurn
  dsimp only
  rw [hfin]

/-- C9 witness: a subturn answering `final` content with no tool call
returns after one Request with the streamed answer. -/
theorem C9_turn_termination_witness :
    attemptTurn (fun _ => false) (fun _ => false) (fun _ => .error [])
        (fun _ _ => false) (fun _ _ => Json.null) (fun _ => []) []
        []
        [[Frame.answer "<|channel|>final<|message|>Hello<|end|>".toList,
          Frame.stop]]
      = (some "Hello".toList, 1, [Message.assistant "Hello".toList]) := by
  have h := C9_turn_termination (fun _ => false) (fun _ => false)
    (fun _ => .error []) (fun _ _ => false) (fun _ _ => Json.null)
    (fun _ => []) [] []
    [Frame.answer "<|channel|>final<|message|>Hello<|end|>".toList, Frame.stop]
    [] [] [] rfl
  rw [h]
  rfl

/-! ## Framed transport (src/protocol.rs, `read_frame_from_stream`)

The resumable `postcard::take_from_bytes` decoder is a parameter (`dec`);
bytes are modelled as `Nat`s (their values never influence control flow
here).  The scripted stream is a list of per-`read` outcomes mirroring
`tokio::time::timeout(per_read, read)`: a per-read timeout, an I/O error, an
EOF (`Ok(0)`), or data; each carries the wall-clock duration it took, and
`elapsed` tracks `start.elapsed()`.  `none` as a result means the script was
exhausted while the loop was still polling.
-/

/-- Outcome of `postcard::take_from_bytes` on a byte buffer. -/
inductive DecodeOutcome (α : Type) where
  | needMore : DecodeOutcome α
  | fail : List Char → DecodeOutcome α
  | ok : α → Nat → DecodeOutcome α
  deriving DecidableEq, Repr

/-- One scripted `read` outcome. -/
inductive ReadEv where
  | timeout : ReadEv
  | ioErr : List Char → Nat → ReadEv
  | eof : Nat → ReadEv
  | data : List Nat → Nat → ReadEv
  deriving DecidableEq, Repr

/-- `ProtocolError` from src/protocol.rs. -/
inductive ProtocolError where
  | disconnect : ProtocolError
  | timeout : ProtocolError
  | io : List Char → ProtocolError
  | decode : List Char → ProtocolError
  deriving DecidableEq, Repr

/-- `start.elapsed() > total_timeout`, with `None` standing for the
`Duration::MAX` default (never exceeded). -/
def totalExceeded (total : Option Nat) (elapsed : Nat) : Bool :=
  match total with
  | none => false
  | some t => decide (elapsed > t)

/-- The guarded decode attempt: an empty store skips the decode call,
which is the same fall-through as `needMore`. -/
def decodeAttempt {α : Type} (dec : List Nat → DecodeOutcome α)
    (store : List Nat) : DecodeOutcome α :=
  match store with
  | [] => DecodeOutcome.needMore
  | _ :: _ => dec store

/-- Dispatch on the decode attempt: `Err(other)` aborts with a decode error,
`Ok` returns the frame with the consumed prefix drained, and
`DeserializeUnexpectedEnd` (needMore) falls through to the read path `k`. -/
def afterDecode {α : Type} (store : List Nat) (o : DecodeOutcome α)
    (k : Unit → Option (Except ProtocolError (α × List Nat))) :
    Option (Except ProtocolError (α × List Nat)) :=
  match o with
  | .fail e => some (.error (.decode e))
  | .ok msg consumed => some (.ok (msg, store.drop consumed))
  | .needMore => k ()

/-- `read_frame_from_stream` from src/protocol.rs over a scripted stream.
Returns the decoded value together with the residual buffered store (the
Rust code drains the consumed prefix of `store` in place). -/
def readFrameFromStream {α : Type} (dec : List Nat → DecodeOutcome α)
    (perRead total : Option Nat) :
    List Nat → Nat → List ReadEv → Option (Except ProtocolError (α × List Nat))
  | store, elapsed, [] =>
    afterDecode store (decodeAttempt dec store) fun _ =>
      if totalExceeded total elapsed then some (.error .timeout) else none
  | store, elapsed, .timeout :: rest =>
    afterDecode store (decodeAttempt dec store) fun _ =>
      if totalExceeded total elapsed then some (.error .timeout)
      else readFrameFromStream dec perRead total store (elapsed + perRead.getD 0) rest
  | store, elapsed, .ioErr e _ :: _ =>
    afterDecode store (decodeAttempt dec store) fun _ =>
      if totalExceeded total elapsed then some (.error .timeout)
      else some (.error (.io e))
  | store, elapsed, .eof _ :: _ =>
    afterDecode store (decodeAttempt dec store) fun _ =>
      if totalExceeded total elapsed then some (.error .timeout)
      else some (.error .disconnect)
  | store, elapsed, .data bs dt :: rest =>
    afterDecode store (decodeAttempt dec store) fun _ =>
      if totalExceeded total elapsed then some (.error .timeout)
      else readFrameFromStream dec perRead total (store ++ bs) (elapsed + dt) rest

/-! ### Claim C6 -/

/-- C6, counterexample: a per-read timeout elapsing without a complete frame
does not return `Timeout` — the loop re-polls, and a frame arriving on the
next read is returned as `Ok`. -/
theorem C6_read_frame_counterexample :
    readFrameFromStream
        (fun bs => if bs = [42] then DecodeOutcome.ok 7 1 else .needMore)
        (some 250) (some 30000) [] 0 [ReadEv.timeout, ReadEv.data [42] 10]
      = some (.ok (7, [])) := rfl

/-- C6 (amended): only the total timeout produces `Timeout`: whenever the
loop reaches its total check (no complete frame buffered) with
`elapsed > total`, the call returns `Timeout`; a per-read timeout alone
merely advances the clock and re-polls; and a zero-byte read (EOF) with an
empty buffered store returns `Disconnect`. -/
theorem C6_read_frame_errors :
    (∀ (α : Type) (dec : List Nat → DecodeOutcome α) (perRead total : Option Nat)
      (store : List Nat) (elapsed : Nat) (evs : List ReadEv),
      (store = [] ∨ dec store = .needMore) →
      totalExceeded total elapsed = true →
      readFrameFromStream dec perRead total store elapsed evs
        = some (.error .timeout))
    ∧ (∀ (α : Type) (dec : List Nat → DecodeOutcome α) (perRead total : Option Nat)
      (store : List Nat) (elapsed : Nat) (evs : List ReadEv),
      (store = [] ∨ dec store = .needMore) →
      totalExceeded total elapsed = false →
      readFrameFromStream dec perRead total store elapsed (ReadEv.timeout :: evs)
        = readFrameFromStream dec perRead total store (elapsed + perRead.getD 0) evs)
    ∧ (∀ (α : Type) (dec : List Nat → DecodeOutcome α) (perRead total : Option Nat)
      (store : List Nat) (elapsed dt : Nat) (evs : List ReadEv),
      (store = [] ∨ dec store = .needMore) →
      totalExceeded total elapsed = false →
      readFrameFromStream dec perRead total store elapsed (ReadEv.eof dt :: evs)
        = some (.error .disconnect)) := by
  have hdec : ∀ (α : Type) (dec : List Nat → DecodeOutcome α) (store : List Nat),
      store = [] ∨ dec store = .needMore → decodeAttempt dec store = .needMore := by
    intro α dec store hstore
    rcases hstore with h | h
    · subst h; rfl
    · cases store with
      | nil => rfl
      | cons b bs => simpa [decodeAttempt] using h
  refine ⟨?_, ?_, ?_⟩
  · intro α dec perRead total store elapsed evs hstore htot
    have h := hdec α dec store hstore
    cases evs with
    | nil => simp [readFrameFromStream, afterDecode, h, htot]
    | cons ev rest =>
      cases ev <;> simp [readFrameFromStream, afterDecode, h, htot]
  · intro α dec perRead total store elapsed evs hstore htot
    have h := hdec α dec store hstore
    simp [readFrameFromStream, afterDecode, h, htot]
  · intro α dec perRead total store elapsed dt evs hstore htot
    have h := hdec α dec store hstore
    simp [readFrameFromStream, afterDecode, h, htot]

/-- C6 witness: total timeout already elapsed with an empty store returns
`Timeout` (here `elapsed = 6 > total = 5`), and an EOF read with partial
bytes buffered (`store = [9]`, not a complete frame) returns `Disconnect`. -/
theorem C6_read_frame_errors_witness :
    (readFrameFromStream
        (fun bs => if bs = [42] then DecodeOutcome.ok 7 1 else .needMore)
        (some 250) (some 5) [] 6 []
      = some (.error ProtocolError.timeout))
    ∧ (readFrameFromStream
        (fun bs => if bs = [42] then DecodeOutcome.ok 7 1 else .needMore)
        (some 250) (some 30000) [9] 0 [ReadEv.eof 10]
      = some (.error ProtocolError.disconnect)) :=
  ⟨C6_read_frame_errors.1 Nat
      (fun bs => if bs = [42] then DecodeOutcome.ok 7 1 else .needMore)
      (some 250) (some 5) [] 6 [] (Or.inl rfl) (by decide),
    C6_read_frame_errors.2.2 Nat
      (fun bs => if bs = [42] then DecodeOutcome.ok 7 1 else .needMore)
      (some 250) (some 30000) [9] 0 10 [] (Or.inr (by decide)) (by decide)⟩


/-! ## Inference sliding-window KV compaction (src/inference.rs) -/

/-- `compute_preamble_len` from src/inference.rs: the token count `n` of the
rendered System+Developer slice, clamped to `ctx_cap - 1`
(`n.min(ctx_cap.saturating_sub(1))`). -/
def computePreambleLen (n ctx_cap : Nat) : Nat :=
  min n (ctx_cap - 1)

/-- `tokenize_clip_to_ctx` from src/inference.rs, over the token list `toks`
already produced by `str_to_token`: keep `[preamble | recent tail]` when the
prompt overflows `ctx_cap - 1`. -/
def tokenizeClipToCtx (toks : List Nat) (preamble_len ctx_cap : Nat) : List Nat :=
  let keep := min toks.length preamble_len
  if toks.length > ctx_cap - 1 then
    let tail_room := ctx_cap - (1 + keep)
    let start := toks.length - tail_room
    toks.take keep ++ toks.drop start
  else
    toks

/-- The `compact` buffer built by `rebuild_kv_with_sliding_window` in
src/inference.rs: `rolling_tokens[..keep] ++ rolling_tokens[tail_start..]`
with the slack margin subtracted from the available tail room.  Rust
`saturating_sub` is Nat subtraction. -/
def rebuildCompact (R : List Nat) (preamble_len ctx_cap : Nat) : List Nat :=
  let keep := min R.length preamble_len
  let available_tail_room := ctx_cap - (1 + keep)
  let slack := min (max ((ctx_cap + 31) / 32) 128) available_tail_room
  let tail_room := available_tail_room - slack
  let tail_start := R.length - tail_room
  R.take keep ++ R.drop tail_start

/-- One iteration of the generation loop in `infer_token_ids_into_stream`
(src/inference.rs) restricted to the rolling token buffer: compaction fires
when `pos >= ctx_cap` (with `pos = rolling_tokens.len()`, both set from the
prompt and incremented together), then the sampled token is pushed. -/
def genStep (preamble_len ctx_cap : Nat) (R : List Nat) (t : Nat) : List Nat :=
  let R' := if ctx_cap ≤ R.length then rebuildCompact R preamble_len ctx_cap else R
  R' ++ [t]

/-- The rolling buffer after the loop has emitted the tokens `ts`. -/
def genRun (preamble_len ctx_cap : Nat) (R0 : List Nat) (ts : List Nat) : List Nat :=
  List.foldl (genStep preamble_len ctx_cap) R0 ts

theorem rebuildCompact_take (R : List Nat) (p c : Nat) (hp : p ≤ R.length) :
    (rebuildCompact R p c).take p = R.take p ∧ p ≤ (rebuildCompact R p c).length := by
  unfold rebuildCompact
  have hkeep : min R.length p = p := min_eq_right hp
  rw [hkeep]
  have hlen : (R.take p).length = p := by
    rw [List.length_take]
    exact min_eq_left hp
  constructor
  · rw [List.take_append_of_le_length (le_of_eq hlen.symm), List.take_take,
      min_self]
  · rw [List.length_append, hlen]
    exact Nat.le_add_right p _

theorem genStep_take (p c : Nat) (R : List Nat) (t : Nat) (hp : p ≤ R.length) :
    (genStep p c R t).take p = R.take p ∧ p ≤ (genStep p c R t).length := by
  unfold genStep
  by_cases h : c ≤ R.length
  · rw [if_pos h]
    obtain ⟨h1, h2⟩ := rebuildCompact_take R p c hp
    constructor
    · rw [List.take_append_of_le_length h2]
      exact h1
    · rw [List.length_append]
      exact Nat.le_add_right_of_le h2
  · rw [if_neg h]
    constructor
    · rw [List.take_append_of_le_length hp]
    · rw [List.length_append]
      exact Nat.le_add_right_of_le hp

theorem genRun_take (p c : Nat) (ts : List Nat) :
    ∀ (R : List Nat), p ≤ R.length →
      (genRun p c R ts).take p = R.take p ∧ p ≤ (genRun p c R ts).length := by
  induction ts with
  | nil => intro R hp; exact ⟨rfl, hp⟩
  | cons t rest ih =>
    intro R hp
    obtain ⟨h1, h2⟩ := genStep_take p c R t hp
    obtain ⟨h3, h4⟩ := ih (genStep p c R t) h2
    exact ⟨h3.trans h1, h4⟩

theorem tokenizeClipToCtx_take (toks : List Nat) (p c : Nat)
    (hp : p ≤ toks.length) :
    (tokenizeClipToCtx toks p c).take p = toks.take p
    ∧ p ≤ (tokenizeClipToCtx toks p c).length := by
  unfold tokenizeClipToCtx
  have hkeep : min toks.length p = p := min_eq_right hp
  rw [hkeep]
  by_cases h : toks.length > c - 1
  · rw [if_pos h]
    have hlen : (toks.take p).length = p := by
      rw [List.length_take]
      exact min_eq_left hp
    constructor
    · rw [List.take_append_of_le_length (le_of_eq hlen.symm), List.take_take,
        min_self]
    · rw [List.length_append, hlen]
      exact Nat.le_add_right p _
  · rw [if_neg h]
    exact ⟨rfl, hp⟩

/-! ### Claim C7 -/

/-- C7: KV compaction preserves the pinned preamble.  With
`preamble_len = computePreambleLen n ctx_cap` (the rendered System+Developer
token count clamped to `ctx_cap - 1`), provided the full prompt tokenizes to
at least `preamble_len` tokens, the clipped initial buffer keeps the prompt's
first `preamble_len` tokens, and after any number of generation-loop steps
(each compacting to `R[..preamble_len] ++ R[len R - tail_room..]` whenever
`pos ≥ ctx_cap`) the first `preamble_len` tokens of the rolling buffer still
equal those initial preamble tokens. -/
theorem C7_kv_compaction_preamble (n ctx_cap : Nat) (toks ts : List Nat)
    (h : computePreambleLen n ctx_cap ≤ toks.length) :
    computePreambleLen n ctx_cap ≤ ctx_cap - 1
    ∧ (tokenizeClipToCtx toks (computePreambleLen n ctx_cap) ctx_cap).take
        (computePreambleLen n ctx_cap) = toks.take (computePreambleLen n ctx_cap)
    ∧ (genRun (computePreambleLen n ctx_cap) ctx_cap
        (tokenizeClipToCtx toks (computePreambleLen n ctx_cap) ctx_cap) ts).take
        (computePreambleLen n ctx_cap) = toks.take (computePreambleLen n ctx_cap) := by
  obtain ⟨h1, h2⟩ := tokenizeClipToCtx_take toks (computePreambleLen n ctx_cap) ctx_cap h
  obtain ⟨h3, _⟩ := genRun_take (computePreambleLen n ctx_cap) ctx_cap ts _ h2
  exact ⟨min_le_right _ _, h1, h3.trans h1⟩

/-- C7 witness: `n = 2`, `ctx_cap = 4`, prompt tokens `[1,2,3,4,5]`, six
generated tokens; the window compacts repeatedly yet the first two tokens of
the rolling buffer stay `[1, 2]`. -/
theorem C7_kv_compaction_preamble_witness :
    computePreambleLen 2 4 ≤ 2
    ∧ (computePreambleLen 2 4 ≤ 4 - 1
      ∧ (tokenizeClipToCtx [1, 2, 3, 4, 5] (computePreambleLen 2 4) 4).take
          (computePreambleLen 2 4) = [1, 2, 3, 4, 5].take (computePreambleLen 2 4)
      ∧ (genRun (computePreambleLen 2 4) 4
          (tokenizeClipToCtx [1, 2, 3, 4, 5] (computePreambleLen 2 4) 4)
          [9, 8, 7, 6, 5, 4]).take (computePreambleLen 2 4)
        = [1, 2, 3, 4, 5].take (computePreambleLen 2 4)) :=
  ⟨by decide, C7_kv_compaction_preamble 2 4 [1, 2, 3, 4, 5] [9, 8, 7, 6, 5, 4] (by decide)⟩


/-! ## apply_patch (src/tools/apply_patch) -/

/-- Rust `str::trim_end` (over `isWs`). -/
def trimEnd (s : List Char) : List Char :=
  (s.reverse.dropWhile isWs).reverse

/-- `eq_line_relaxed` from src/tools/apply_patch/text.rs. -/
def eq_line_relaxed (a b : List Char) : Bool :=
  trimEnd a == trimEnd b

/-- Rust `str::split('\n')`: always at least one (possibly empty) piece. -/
def splitNl : List Char → List (List Char)
  | [] => [[]]
  | c :: rest =>
    if c = '\n' then [] :: splitNl rest
    else
      match splitNl rest with
      | [] => [[c]]
      | l :: ls => (c :: l) :: ls

/-- Rust `[&str]::join("\n")`. -/
def joinNl : List (List Char) → List Char
  | [] => []
  | [l] => l
  | l :: ls => l ++ '\n' :: joinNl ls

/-- The inner loop of `find_lines_window`: does `old` match `before`
line-by-line (relaxed) starting at the window? -/
def eqLinesRelaxed : List (List Char) → List (List Char) → Bool
  | [], [] => true
  | a :: as, b :: bs => eq_line_relaxed a b && eqLinesRelaxed as bs
  | _, _ => false

/-- The outer loop of `find_lines_window`, with the remaining candidate
starts `start, start+1, …` counted by `fuel`. -/
def findLinesFrom (before old : List (List Char)) : Nat → Nat → Option (Nat × Nat)
  | _, 0 => none
  | start, fuel + 1 =>
    if eqLinesRelaxed ((before.drop start).take old.length) old then
      some (start, start + old.length)
    else
      findLinesFrom before old (start + 1) fuel

/-- `find_lines_window` from src/tools/apply_patch/text.rs: first window of
`before` matching `old` under `eq_line_relaxed`, scanning starts
`0 ..= before.len() - old.len()`. -/
def find_lines_window (before old : List (List Char)) : Option (Nat × Nat) :=
  if old.isEmpty || before.length < old.length then none
  else findLinesFrom before old 0 (before.length - old.length + 1)

/-- `s.replace('\n', "\\n")` used by `preview`. -/
def escapeNl : List Char → List Char
  | [] => []
  | c :: rest =>
    if c = '\n' then '\\' :: 'n' :: escapeNl rest else c :: escapeNl rest

/-- `preview` from src/tools/apply_patch/text.rs (lengths counted in
characters; hunk text on this path is ASCII). -/
def preview (s : List Char) : List Char :=
  let e := escapeNl s
  if 160 < e.length then e.take 160 ++ ['…'] else e

/-- `set_trailing_newline` from src/tools/apply_patch/text.rs:
`trim_end_matches('\n')` then push one back if wanted. -/
def set_trailing_newline (s : List Char) (want_newline : Bool) : List Char :=
  let t := (s.reverse.dropWhile (fun c => c = '\n')).reverse
  if want_newline then t ++ ['\n'] else t

/-- `Hunk` from src/tools/apply_patch/model.rs. -/
structure Hunk where
  old_lines : List (List Char)
  new_lines : List (List Char)
  deriving DecidableEq, Repr

/-- `apply_hunk` from src/tools/apply_patch/applying.rs. -/
def apply_hunk (before : List Char) (h : Hunk) : Except (List Char) (List Char) :=
  if h.old_lines.isEmpty then
    let out :=
      if !before.isEmpty && before.getLast? != some '\n' then before ++ ['\n']
      else before
    .ok (out ++ joinNl h.new_lines)
  else
    let old_seg := joinNl h.old_lines
    let new_seg := joinNl h.new_lines
    let before_lines := splitNl before
    let old_ls := splitNl old_seg
    let ends_with_nl := before.getLast? == some '\n'
    match find_lines_window before_lines old_ls with
    | some (sIdx, eIdx) =>
      let owned := before_lines.take sIdx ++ h.new_lines ++ before_lines.drop eIdx
      let out := joinNl owned
      .ok (if ends_with_nl && out.getLast? != some '\n' then out ++ ['\n'] else out)
    | none =>
      match findSub before old_seg with
      | some pos =>
        .ok (before.take pos ++ new_seg ++ before.drop (pos + old_seg.length))
      | none =>
        .error ("hunk old text not found: ".toList ++ preview old_seg)

/-- The loop of `apply_all_hunks`: thread the text through the hunks,
collecting `(index, message)` for each failure and continuing. -/
def applyAllHunksAux (idx : Nat) (text : List Char)
    (errors : List (Nat × List Char)) :
    List Hunk → List Char × List (Nat × List Char)
  | [] => (text, errors)
  | h :: rest =>
    match apply_hunk text h with
    | .ok next => applyAllHunksAux (idx + 1) next errors rest
    | .error e => applyAllHunksAux (idx + 1) text (errors ++ [(idx, e)]) rest

/-- `apply_all_hunks` from src/tools/apply_patch/applying.rs. -/
def apply_all_hunks (before : List Char) (hunks : List Hunk) :
    Except (List (Nat × List Char)) (List Char) :=
  let r := applyAllHunksAux 0 before [] hunks
  if r.2.isEmpty then .ok r.1 else .error r.2

/-- `std::io::Error` restricted to what the patch executor inspects. -/
inductive IoErr where
  | notFound : IoErr
  | other : List Char → IoErr
  deriving DecidableEq, Repr

/-- `e.to_string()` on the modelled error. -/
def ioErrStr : IoErr → List Char
  | .notFound => "entity not found".toList
  | .other msg => msg

/-- The workspace as a map from resolved relative path to file content. -/
def Fsm : Type := List (List Char × List Char)

/-- `fs::read_to_string` over the map. -/
def fsRead (fs : Fsm) (p : List Char) : Option (List Char) :=
  match fs with
  | [] => none
  | e :: rest => if e.1 == p then some e.2 else fsRead rest p

/-- `fs::write` over the map. -/
def fsWrite (fs : Fsm) (p content : List Char) : Fsm :=
  (p, content) :: (fs : List (List Char × List Char)).filter (fun e => !(e.1 == p))

/-- `fs::remove_file` over the map: `NotFound` when no entry exists. -/
def removeFile (fs : Fsm) (p : List Char) : Except IoErr Fsm :=
  match fsRead fs p with
  | none => .error .notFound
  | some _ => .ok ((fs : List (List Char × List Char)).filter (fun e => !(e.1 == p)))

/-- `write_text_creating_dirs` from src/tools/apply_patch/filesystem.rs, over
the abstract `resolve` (= `resolve_path_within_cwd`) and the map. -/
def write_text_creating_dirs (resolve : List Char → Except IoErr (List Char))
    (fs : Fsm) (path content : List Char) (want_trailing_newline : Bool) :
    Except IoErr Fsm :=
  match resolve path with
  | .error e => .error e
  | .ok rel => .ok (fsWrite fs rel (set_trailing_newline content want_trailing_newline))

/-- `remove_file_if_exists` from src/tools/apply_patch/filesystem.rs: a
`NotFound` from removal is mapped to `Ok`. -/
def remove_file_if_exists (resolve : List Char → Except IoErr (List Char))
    (fs : Fsm) (path : List Char) : Except IoErr Fsm :=
  match resolve path with
  | .error e => .error e
  | .ok rel =>
    match removeFile fs rel with
    | .ok fs' => .ok fs'
    | .error .notFound => .ok fs
    | .error e => .error e

/-- `resolve_path_within_cwd(&path).and_then(fs::read_to_string)` with the
`NotFound => String::new()` arm of the Update branch folded in. -/
def readFileForUpdate (resolve : List Char → Except IoErr (List Char))
    (fs : Fsm) (path : List Char) : Except IoErr (List Char) :=
  match (match resolve path with
         | .error e => Except.error e
         | .ok rel =>
           match fsRead fs rel with
           | none => Except.error IoErr.notFound
           | some s => Except.ok s) with
  | .ok s => .ok s
  | .error .notFound => .ok []
  | .error e => .error e

/-- `PatchOp` from src/tools/apply_patch/model.rs
(`path, content, no_newline` / `path` / `path, hunks, no_newline`). -/
inductive PatchOp where
  | add : List Char → List Char → Bool → PatchOp
  | delete : List Char → PatchOp
  | update : List Char → List Hunk → Bool → PatchOp
  deriving Repr

/-- One arm of the `for op in ops` loop of `execute_patch_ops`: the op's
result object and the workspace it leaves behind (every arm continues). -/
def patchStep (resolve : List Char → Except IoErr (List Char)) (fs : Fsm) :
    PatchOp → Fsm × Json
  | .add path content no_nl =>
    match write_text_creating_dirs resolve fs path content (!no_nl) with
    | .ok fs' =>
      (fs', Json.obj [("path".toList, .str path), ("op".toList, .str "add".toList),
        ("ok".toList, .bool true)])
    | .error e =>
      (fs, Json.obj [("path".toList, .str path), ("op".toList, .str "add".toList),
        ("ok".toList, .bool false), ("error".toList, .str (ioErrStr e))])
  | .delete path =>
    match remove_file_if_exists resolve fs path with
    | .ok fs' =>
      (fs', Json.obj [("path".toList, .str path), ("op".toList, .str "delete".toList),
        ("ok".toList, .bool true)])
    | .error e =>
      (fs, Json.obj [("path".toList, .str path), ("op".toList, .str "delete".toList),
        ("ok".toList, .bool false), ("error".toList, .str (ioErrStr e))])
  | .update path hunks no_nl =>
    match readFileForUpdate resolve fs path with
    | .error e =>
      (fs, Json.obj [("path".toList, .str path), ("op".toList, .str "update".toList),
        ("ok".toList, .bool false),
        ("error".toList, .str ("read: ".toList ++ ioErrStr e))])
    | .ok text0 =>
      match apply_all_hunks text0 hunks with
      | .ok text =>
        match write_text_creating_dirs resolve fs path text (!no_nl) with
        | .ok fs' =>
          (fs', Json.obj [("path".toList, .str path), ("op".toList, .str "update".toList),
            ("ok".toList, .bool true)])
        | .error e =>
          (fs, Json.obj [("path".toList, .str path), ("op".toList, .str "update".toList),
            ("ok".toList, .bool false),
            ("error".toList, .str ("write: ".toList ++ ioErrStr e))])
      | .error errs =>
        (fs, Json.obj [("path".toList, .str path), ("op".toList, .str "update".toList),
          ("ok".toList, .bool false),
          ("errors".toList, .arr (errs.map (fun ie =>
            Json.obj [("hunk".toList, .num (ie.1 : Int)),
              ("error".toList, .str ie.2)])))])

/-- The `for` loop of `execute_patch_ops`: one result per op, workspace
threaded through. -/
def executePatchOpsGo (resolve : List Char → Except IoErr (List Char)) :
    Fsm → List PatchOp → Fsm × List Json
  | fs, [] => (fs, [])
  | fs, op :: rest =>
    let st := patchStep resolve fs op
    let r := executePatchOpsGo resolve st.1 rest
    (r.1, st.2 :: r.2)

/-- `execute_patch_ops` from src/tools/apply_patch/filesystem.rs: the final
workspace and the top-level response object. -/
def execute_patch_ops (resolve : List Char → Except IoErr (List Char))
    (fs : Fsm) (ops : List PatchOp) : Fsm × Json :=
  let r := executePatchOpsGo resolve fs ops
  (r.1, Json.obj [("ok".toList, .bool true), ("mode".toList, .str "patch".toList),
    ("results".toList, .arr r.2)])

theorem executePatchOpsGo_length (resolve : List Char → Except IoErr (List Char)) :
    ∀ (ops : List PatchOp) (fs : Fsm),
      (executePatchOpsGo resolve fs ops).2.length = ops.length := by
  intro ops
  induction ops with
  | nil => intro fs; rfl
  | cons op rest ih =>
    intro fs
    unfold executePatchOpsGo
    simp [ih]

/-! ### Claim C8 -/

/-- C8: patch errors accumulate without aborting.  (1) A hunk whose old text
matches no line window and no substring of the file fails with exactly
`"hunk old text not found: <preview>"`; (2) a failed hunk is recorded as
`(index, message)` while the text is left unchanged and the remaining hunks
are still applied; (3) an Update op whose hunks fail reports
`ok: false` with the per-hunk `errors` array and leaves the workspace
unchanged; (4) an op that leaves the workspace unchanged has no effect on the
other ops' results, which are computed independently; (5) the overall call
always returns `{ok: true, mode: "patch", results: […]}` with exactly one
result per op, never a top-level error. -/
theorem C8_patch_error_accumulation :
    (∀ (before : List Char) (h : Hunk),
      h.old_lines.isEmpty = false →
      find_lines_window (splitNl before) (splitNl (joinNl h.old_lines)) = none →
      findSub before (joinNl h.old_lines) = none →
      apply_hunk before h
        = .error ("hunk old text not found: ".toList ++ preview (joinNl h.old_lines)))
    ∧ (∀ (idx : Nat) (text : List Char) (errs : List (Nat × List Char))
        (h : Hunk) (rest : List Hunk) (e : List Char),
      apply_hunk text h = .error e →
      applyAllHunksAux idx text errs (h :: rest)
        = applyAllHunksAux (idx + 1) text (errs ++ [(idx, e)]) rest)
    ∧ (∀ (resolve : List Char → Except IoErr (List Char)) (fs : Fsm)
        (path : List Char) (hunks : List Hunk) (no_nl : Bool)
        (text0 : List Char) (errs : List (Nat × List Char)),
      readFileForUpdate resolve fs path = .ok text0 →
      apply_all_hunks text0 hunks = .error errs →
      patchStep resolve fs (.update path hunks no_nl)
        = (fs, Json.obj [("path".toList, .str path), ("op".toList, .str "update".toList),
            ("ok".toList, .bool false),
            ("errors".toList, .arr (errs.map (fun ie =>
              Json.obj [("hunk".toList, .num (ie.1 : Int)),
                ("error".toList, .str ie.2)])))]))
    ∧ (∀ (resolve : List Char → Except IoErr (List Char)) (fs : Fsm)
        (op : PatchOp) (rest : List PatchOp) (j : Json),
      patchStep resolve fs op = (fs, j) →
      executePatchOpsGo resolve fs (op :: rest)
        = ((executePatchOpsGo resolve fs rest).1,
            j :: (executePatchOpsGo resolve fs rest).2))
    ∧ (∀ (resolve : List Char → Except IoErr (List Char)) (fs : Fsm)
        (ops : List PatchOp),
      (execute_patch_ops resolve fs ops).2
        = Json.obj [("ok".toList, .bool true), ("mode".toList, .str "patch".toList),
            ("results".toList, .arr (executePatchOpsGo resolve fs ops).2)]
      ∧ (executePatchOpsGo resolve fs ops).2.length = ops.length) := by
  refine ⟨?_, ?_, ?_, ?_, ?_⟩
  · intro before h hne hwin hsub
    unfold apply_hunk
    rw [hne]
    simp only [Bool.false_eq_true, if_false]
    rw [hwin, hsub]
  · intro idx text errs h rest e he
    conv_lhs => rw [applyAllHunksAux, he]
  · intro resolve fs path hunks no_nl text0 errs hread herrs
    unfold patchStep
    dsimp only
    rw [hread]
    dsimp only
    rw [herrs]
  · intro resolve fs op rest j hstep
    conv_lhs => rw [executePatchOpsGo]
    rw [hstep]
  · intro resolve fs ops
    exact ⟨rfl, executePatchOpsGo_length resolve ops fs⟩

/-- C8 witness: a two-op patch against a workspace holding `a.txt`; the first
op's only hunk misses, the op reports the per-hunk error and the second op
still runs, with the top-level response `ok: true` and one result per op. -/
theorem C8_patch_error_accumulation_witness :
    (apply_hunk "line1\nline2\n".toList ⟨["missing".toList], ["x".toList]⟩
      = .error ("hunk old text not found: ".toList ++ preview (joinNl [ "missing".toList ])))
    ∧ (applyAllHunksAux 0 "line1\nline2\n".toList []
        [⟨["missing".toList], ["x".toList]⟩]
      = applyAllHunksAux 1 "line1\nline2\n".toList
          [(0, "hunk old text not found: ".toList ++ preview (joinNl [ "missing".toList ]))] [])
    ∧ (patchStep (fun p => .ok p) [("a.txt".toList, "line1\nline2\n".toList)]
        (.update "a.txt".toList [⟨["missing".toList], ["x".toList]⟩] false)
      = ([("a.txt".toList, "line1\nline2\n".toList)],
          Json.obj [("path".toList, .str "a.txt".toList),
            ("op".toList, .str "update".toList),
            ("ok".toList, .bool false),
            ("errors".toList, .arr ([((0 : Nat),
              "hunk old text not found: ".toList ++ preview (joinNl [ "missing".toList ]))].map
              (fun ie => Json.obj [("hunk".toList, .num (ie.1 : Int)),
                ("error".toList, .str ie.2)])))]))
    ∧ (executePatchOpsGo (fun p => .ok p)
        [("a.txt".toList, "line1\nline2\n".toList)]
        [.update "a.txt".toList [⟨["missing".toList], ["x".toList]⟩] false,
          .delete "a.txt".toList]
      = ((executePatchOpsGo (fun p => .ok p)
            [("a.txt".toList, "line1\nline2\n".toList)] [.delete "a.txt".toList]).1,
          (Json.obj [("path".toList, .str "a.txt".toList),
            ("op".toList, .str "update".toList),
            ("ok".toList, .bool false),
            ("errors".toList, .arr ([((0 : Nat),
              "hunk old text not found: ".toList ++ preview (joinNl [ "missing".toList ]))].map
              (fun ie => Json.obj [("hunk".toList, .num (ie.1 : Int)),
                ("error".toList, .str ie.2)])))])
            :: (executePatchOpsGo (fun p => .ok p)
                [("a.txt".toList, "line1\nline2\n".toList)] [.delete "a.txt".toList]).2))
    ∧ ((execute_patch_ops (fun p => .ok p)
        [("a.txt".toList, "line1\nline2\n".toList)]
        [.update "a.txt".toList [⟨["missing".toList], ["x".toList]⟩] false,
          .delete "a.txt".toList]).2
      = Json.obj [("ok".toList, .bool true), ("mode".toList, .str "patch".toList),
          ("results".toList, .arr (executePatchOpsGo (fun p => .ok p)
            [("a.txt".toList, "line1\nline2\n".toList)]
            [.update "a.txt".toList [⟨["missing".toList], ["x".toList]⟩] false,
              .delete "a.txt".toList]).2)]) :=
  ⟨C8_patch_error_accumulation.1 "line1\nline2\n".toList
      ⟨["missing".toList], ["x".toList]⟩ rfl rfl rfl,
    C8_patch_error_accumulation.2.1 0 "line1\nline2\n".toList []
      ⟨["missing".toList], ["x".toList]⟩ []
      ("hunk old text not found: ".toList ++ preview (joinNl [ "missing".toList ])) rfl,
    C8_patch_error_accumulation.2.2.1 (fun p => .ok p)
      [("a.txt".toList, "line1\nline2\n".toList)] "a.txt".toList
      [⟨["missing".toList], ["x".toList]⟩] false "line1\nline2\n".toList
      [(0, "hunk old text not found: ".toList ++ preview (joinNl [ "missing".toList ]))]
      rfl rfl,
    C8_patch_error_accumulation.2.2.2.1 (fun p => .ok p)
      [("a.txt".toList, "line1\nline2\n".toList)]
      (.update "a.txt".toList [⟨["missing".toList], ["x".toList]⟩] false)
      [.delete "a.txt".toList] _ rfl,
    (C8_patch_error_accumulation.2.2.2.2 (fun p => .ok p)
      [("a.txt".toList, "line1\nline2\n".toList)]
      [.update "a.txt".toList [⟨["missing".toList], ["x".toList]⟩] false,
        .delete "a.txt".toList]).1⟩

/-! ### Claim C10 -/

/-- C10: deleting an absent file succeeds.  If the path resolves to `rel` and
no file exists there, `fs::remove_file` fails with `NotFound`,
`remove_file_if_exists` maps that to `Ok` with the workspace unchanged, and
the Delete op reports `{path, op: "delete", ok: true}`. -/
theorem C10_delete_absent_ok (resolve : List Char → Except IoErr (List Char))
    (fs : Fsm) (path rel : List Char)
    (hres : resolve path = .ok rel) (habs : fsRead fs rel = none) :
    removeFile fs rel = .error .notFound
    ∧ remove_file_if_exists resolve fs path = .ok fs
    ∧ patchStep resolve fs (.delete path)
      = (fs, Json.obj [("path".toList, .str path), ("op".toList, .str "delete".toList),
          ("ok".toList, .bool true)]) := by
  have hrm : removeFile fs rel = .error .notFound := by
    unfold removeFile
    rw [habs]
  have hrfe : remove_file_if_exists resolve fs path = .ok fs := by
    unfold remove_file_if_exists
    rw [hres]
    dsimp only
    rw [hrm]
  refine ⟨hrm, hrfe, ?_⟩
  unfold patchStep
  dsimp only
  rw [hrfe]


/-- C10 witness: an empty workspace, `resolve` the identity on the relative
path; deleting `gone.txt` reports `ok: true`. -/
theorem C10_delete_absent_ok_witness :
    removeFile [] "gone.txt".toList = .error .notFound
    ∧ remove_file_if_exists (fun p => .ok p) [] "gone.txt".toList = .ok []
    ∧ patchStep (fun p => .ok p) [] (.delete "gone.txt".toList)
      = ([], Json.obj [("path".toList, .str "gone.txt".toList),
          ("op".toList, .str "delete".toList), ("ok".toList, .bool true)]) :=
  C10_delete_absent_ok (fun p => .ok p) [] "gone.txt".toList "gone.txt".toList rfl rfl


/-! ## Sandbox path resolution (src/tools/common.rs)

Absolute paths are segment lists below the filesystem root; the filesystem
itself (`symlink_metadata` and `Path::canonicalize`, which follow symlinks)
is a parameter. -/

/-- A path segment (one `Component::Normal`). -/
abbrev Seg := List Char

/-- The filesystem as seen by `soft_canonicalize`:
`exists_ p` is `fs::symlink_metadata(p).is_ok()` and `canon` is
`Path::canonicalize` (`none` = I/O error, in particular on a path that does
not exist). -/
structure Fs where
  exists_ : List Seg → Bool
  canon : List Seg → Option (List Seg)

/-- The end of `soft_canonicalize`: canonicalize the existing prefix, then
append the peeled tail back. -/
def canonStep (fs : Fs) (p tail : List Seg) : Option (List Seg) :=
  match fs.canon p with
  | none => none
  | some base => some (base ++ tail)

/-- The peeling loop of `soft_canonicalize` (src/tools/common.rs): the first
argument is the remaining probe, reversed (deepest segment first); the second
is the peeled-off non-existent tail, in path order.  When every segment has
been peeled the base is `PathBuf::new()`. -/
def softCanonRev (fs : Fs) : List Seg → List Seg → Option (List Seg)
  | [], tail => some tail
  | sg :: rev, tail =>
    if fs.exists_ ((sg :: rev).reverse) then canonStep fs ((sg :: rev).reverse) tail
    else softCanonRev fs rev (sg :: tail)

/-- `soft_canonicalize` from src/tools/common.rs. -/
def softCanon (fs : Fs) (p : List Seg) : Option (List Seg) :=
  softCanonRev fs p.reverse []

/-- A `Path` component of the input string. -/
inductive Comp where
  | curDir : Comp
  | parentDir : Comp
  | rootDir : Comp
  | normal : Seg → Comp
  deriving DecidableEq, Repr

/-- The component-collapsing loop of `resolve_path_within_cwd`: `.` is
skipped, a normal segment is pushed, `..` pops (erroring above the root), and
rooted components are rejected. -/
def collapseRel : List Comp → List Seg → Except Unit (List Seg)
  | [], rel => .ok rel
  | .curDir :: rest, rel => collapseRel rest rel
  | .normal sg :: rest, rel => collapseRel rest (rel ++ [sg])
  | .parentDir :: rest, rel =>
    if rel.isEmpty then .error () else collapseRel rest rel.dropLast
  | .rootDir :: _, _ => .error ()

/-- The shapes of the input string: empty/`.`, absolute (already split into
normal segments), or relative components. -/
inductive PathInput where
  | dot : PathInput
  | abs : List Seg → PathInput
  | rel : List Comp → PathInput

/-- `resolve_path_within_cwd`'s error: `PermissionDenied` for containment
violations, or a propagated I/O error. -/
inductive ResolveErr where
  | permissionDenied : ResolveErr
  | ioFail : ResolveErr
  deriving DecidableEq, Repr

/-- `resolve_path_within_cwd` from src/tools/common.rs over the abstract
filesystem: `cwd` is `env::current_dir()`, canonicalized first; the returned
path is relative (a bare segment list, `[]` standing for `.`). -/
def resolve_path_within_cwd (fs : Fs) (cwd : List Seg) :
    PathInput → Except ResolveErr (List Seg)
  | .dot =>
    match fs.canon cwd with
    | none => .error .ioFail
    | some _ => .ok []
  | .abs p =>
    match fs.canon cwd with
    | none => .error .ioFail
    | some root =>
      match softCanon fs p with
      | none => .error .ioFail
      | some abs_ =>
        if root.isPrefixOf abs_ then .ok (abs_.drop root.length)
        else .error .permissionDenied
  | .rel comps =>
    match fs.canon cwd with
    | none => .error .ioFail
    | some root =>
      match collapseRel comps [] with
      | .error _ => .error .permissionDenied
      | .ok rel =>
        match softCanon fs (root ++ rel) with
        | none => .error .ioFail
        | some real =>
          if root.isPrefixOf real then .ok (real.drop root.length)
          else .error .permissionDenied

theorem softCanonRev_skip (fs : Fs) (base : List Seg)
    (hbase : base = [] ∨ (fs.exists_ base = true ∧ fs.canon base = some base)) :
    ∀ (revt tail' : List Seg),
      (∀ t, t ≠ [] → t <+: revt.reverse → fs.exists_ (base ++ t) = false) →
      softCanonRev fs (revt ++ base.reverse) tail'
        = some (base ++ revt.reverse ++ tail') := by
  intro revt
  induction revt with
  | nil =>
    intro tail' _
    rcases hbase with h | ⟨h1, h2⟩
    · subst h; rfl
    · cases hrev : base.reverse with
      | nil =>
        have : base = [] := by simpa using congrArg List.reverse hrev
        subst this
        rfl
      | cons sg rev =>
        have hb : (sg :: rev).reverse = base := by
          rw [← hrev, List.reverse_reverse]
        simp only [List.nil_append, softCanonRev, hb, h1, if_true, canonStep, h2]
        simp
  | cons sg revt ih =>
    intro tail' hpref
    have hx : fs.exists_ (base ++ (revt.reverse ++ [sg])) = false := by
      apply hpref
      · simp
      · rw [List.reverse_cons]
    have harg : (sg :: (revt ++ base.reverse)).reverse
        = base ++ (revt.reverse ++ [sg]) := by
      simp
    rw [List.cons_append, softCanonRev, harg, hx, if_neg (by simp)]
    rw [ih (sg :: tail') (fun t ht hpre => hpref t ht
      (hpre.trans (by rw [List.reverse_cons]; exact List.prefix_append _ _)))]
    simp

theorem softCanonRev_idem (fs : Fs)
    (hcanon : ∀ p c, fs.canon p = some c → fs.exists_ c = true ∧ fs.canon c = some c)
    (hsame : ∀ p c, fs.canon p = some c → ∀ x, fs.exists_ (c ++ x) = fs.exists_ (p ++ x)) :
    ∀ (rev tail r : List Seg),
      (∀ t, t ≠ [] → t <+: tail → fs.exists_ (rev.reverse ++ t) = false) →
      softCanonRev fs rev tail = some r →
      softCanon fs r = some r := by
  intro rev
  induction rev with
  | nil =>
    intro tail r hpref hrun
    rw [softCanonRev] at hrun
    injection hrun with h
    subst h
    have := softCanonRev_skip fs [] (Or.inl rfl) tail.reverse []
      (fun t ht hpre => by
        have := hpref t ht (by simpa using hpre)
        simpa using this)
    unfold softCanon
    simpa using this
  | cons sg rev ih =>
    intro tail r hpref hrun
    rw [softCanonRev] at hrun
    by_cases hex : fs.exists_ ((sg :: rev).reverse) = true
    · rw [if_pos hex] at hrun
      simp only [canonStep] at hrun
      cases hc : fs.canon ((sg :: rev).reverse) with
      | none => rw [hc] at hrun; simp at hrun
      | some base =>
        simp only [hc] at hrun
        injection hrun with h
        subst h
        obtain ⟨hb1, hb2⟩ := hcanon _ _ hc
        have := softCanonRev_skip fs base (Or.inr ⟨hb1, hb2⟩) tail.reverse []
          (fun t ht hpre => by
            rw [hsame _ _ hc t]
            exact hpref t ht (by simpa using hpre))
        unfold softCanon
        rw [List.reverse_append]
        simpa using this
    · rw [if_neg hex] at hrun
      refine ih (sg :: tail) r ?_ hrun
      intro t ht hpre
      cases t with
      | nil => exact absurd rfl ht
      | cons t0 ts =>
        rcases hpre with ⟨u, hu⟩
        rw [List.cons_append] at hu
        injection hu with h1 h2
        rw [h1]
        cases ts with
        | nil =>
          rw [show rev.reverse ++ [sg] = (sg :: rev).reverse by simp]
          simpa using hex
        | cons v vs =>
          have := hpref (v :: vs) (by simp) ⟨u, h2⟩
          rw [show rev.reverse ++ sg :: v :: vs = (sg :: rev).reverse ++ (v :: vs) by simp]
          exact this

/-! ### Claim C1 -/

/-- C1: sandbox containment.  Assuming `Path::canonicalize` returns existing
fixpoints (`hcanon`) that designate the same directory entry as their
argument (`hsame`: the same descendants exist), every `Ok(q)` of
`resolve_path_within_cwd` — for empty/`.`, absolute, or relative input, with
`q` relative by construction — satisfies: soft-canonicalizing
`root.join(q)` (with `root` the canonicalized CWD) succeeds and the result
starts with `root`, i.e. no `Ok` result designates a location outside the
workspace even through symlinked existing ancestors. -/
theorem C1_sandbox_containment (fs : Fs) (cwd : List Seg) (input : PathInput)
    (q : List Seg)
    (hcanon : ∀ p c, fs.canon p = some c → fs.exists_ c = true ∧ fs.canon c = some c)
    (hsame : ∀ p c, fs.canon p = some c → ∀ x, fs.exists_ (c ++ x) = fs.exists_ (p ++ x))
    (hok : resolve_path_within_cwd fs cwd input = .ok q) :
    ∃ root real, fs.canon cwd = some root
      ∧ softCanon fs (root ++ q) = some real
      ∧ root <+: real := by
  cases input with
  | dot =>
    rw [resolve_path_within_cwd] at hok
    cases hcwd : fs.canon cwd with
    | none => simp [hcwd] at hok
    | some root =>
      simp only [hcwd] at hok
      injection hok with h
      subst h
      refine ⟨root, root, rfl, ?_, List.prefix_refl root⟩
      obtain ⟨hb1, hb2⟩ := hcanon _ _ hcwd
      have := softCanonRev_skip fs root (Or.inr ⟨hb1, hb2⟩) [] []
        (fun t ht hpre => by simp at hpre; exact absurd hpre ht)
      unfold softCanon
      simp only [List.append_nil]
      simpa using this
  | abs p =>
    rw [resolve_path_within_cwd] at hok
    cases hcwd : fs.canon cwd with
    | none => simp [hcwd] at hok
    | some root =>
      simp only [hcwd] at hok
      cases hsc : softCanon fs p with
      | none => simp [hsc] at hok
      | some abs_ =>
        simp only [hsc] at hok
        by_cases hpre : root.isPrefixOf abs_ = true
        · rw [if_pos hpre] at hok
          injection hok with h
          subst h
          have hpre' : root <+: abs_ := List.isPrefixOf_iff_prefix.mp hpre
          have heq : root ++ abs_.drop root.length = abs_ := by
            conv_rhs => rw [← List.take_append_drop root.length abs_]
            rw [← List.prefix_iff_eq_take.mp hpre']
          refine ⟨root, abs_, rfl, ?_, hpre'⟩
          rw [heq]
          exact softCanonRev_idem fs hcanon hsame p.reverse [] abs_
            (fun t ht hpre => by simp at hpre; exact absurd hpre ht) hsc
        · rw [if_neg hpre] at hok
          simp at hok
  | rel comps =>
    rw [resolve_path_within_cwd] at hok
    cases hcwd : fs.canon cwd with
    | none => simp [hcwd] at hok
    | some root =>
      simp only [hcwd] at hok
      cases hcol : collapseRel comps [] with
      | error e => simp [hcol] at hok
      | ok rel =>
        simp only [hcol] at hok
        cases hsc : softCanon fs (root ++ rel) with
        | none => simp [hsc] at hok
        | some real =>
          simp only [hsc] at hok
          by_cases hpre : root.isPrefixOf real = true
          · rw [if_pos hpre] at hok
            injection hok with h
            subst h
            have hpre' : root <+: real := List.isPrefixOf_iff_prefix.mp hpre
            have heq : root ++ real.drop root.length = real := by
              conv_rhs => rw [← List.take_append_drop root.length real]
              rw [← List.prefix_iff_eq_take.mp hpre']
            refine ⟨root, real, rfl, ?_, hpre'⟩
            rw [heq]
            exact softCanonRev_idem fs hcanon hsame (root ++ rel).reverse [] real
              (fun t ht hpre => by simp at hpre; exact absurd hpre ht) hsc
          · rw [if_neg hpre] at hok
            simp at hok

/-- The everything-exists, already-canonical filesystem, used to instantiate
the containment theorem on a concrete run. -/
def fsId : Fs := ⟨fun _ => true, fun p => some p⟩

/-- C1 witness: on `fsId` with CWD `[w]`, resolving the relative input `a/.`
returns `Ok([a])`, and soft-canonicalizing `[w] ++ [a]` yields `[w, a]`,
which starts with the root `[w]`. -/
theorem C1_sandbox_containment_witness :
    ∃ root real, fsId.canon ["w".toList] = some root
      ∧ softCanon fsId (root ++ ["a".toList]) = some real
      ∧ root <+: real :=
  C1_sandbox_containment fsId ["w".toList]
    (.rel [Comp.normal "a".toList, Comp.curDir]) ["a".toList]
    (fun p c h => by cases h; exact ⟨rfl, rfl⟩)
    (fun p c h => by cases h; intro x; rfl)
    rfl

end Please
